import Mathlib

/-!
# FlashX: message sending of the graph engine, PageRank and raw data arrays

A shallow embedding of `apps/graph_engine.h`, `apps/page-rank/page_rank.cpp` and
`matrix/raw_data_array.cpp`.

* Arrays `ids[]` with their count `num` are lists.
* The senders of the calling worker are a function from the thread id to the
  sender state (`get_multicast_sender(thread_id)` and its siblings).
* `partitioner->map` and `get_num_threads()` are parameters of the engine functions.
* A C `assert` that fails ends the call with `Outcome.assert_failed`; a loop that
  has not finished within its step budget ends it with `Outcome.out_of_fuel`.
-/

namespace FlashX

/-- A vertex id: a dense 32-bit unsigned integer (`vertex_id_t`). -/
abbrev vertex_id_t := Nat

/-- The result of a call that may hit a failing `assert` or an unbounded loop. -/
inductive Outcome (α : Type) where
  | ok : α → Outcome α
  | assert_failed : Outcome α
  | out_of_fuel : Outcome α
  deriving Repr, DecidableEq

/-- Sequencing of calls: the first failure ends the run. -/
def Outcome.bind {α β : Type} : Outcome α → (α → Outcome β) → Outcome β
  | .ok a, f => f a
  | .assert_failed, _ => .assert_failed
  | .out_of_fuel, _ => .out_of_fuel

/-- The member functions of `multicast_msg_sender` that `graph_engine` calls, over an
arbitrary sender state `S` and message type `M` (the template parameter `T`).
`add_dest` returns its `bool` together with the sender after the call. -/
structure multicast_sender_ops (S M : Type) where
  has_msg : S → Bool
  init : S → M → S
  add_dest : S → vertex_id_t → Bool × S
  end_multicast : S → S

/-- Replace the sender of one thread id. -/
def set_sender {S : Type} (senders : Nat → S) (part_id : Nat) (s : S) : Nat → S :=
  fun i => if i = part_id then s else senders i

section engine

variable {S M : Type}

/-- The first attempt of both `multicast_msg` and `activate_vertices`:
`bool ret = false; if (sender->has_msg()) ret = sender->add_dest(ids[i]);`. -/
def first_attempt (ops : multicast_sender_ops S M) (sender : S) (id : vertex_id_t) : Bool × S :=
  if ops.has_msg sender then ops.add_dest sender id else (false, sender)

/-- The loop `do { retries++; sender->init(msg); ret = sender->add_dest(ids[i]); } while (!ret);`
of `multicast_msg`, with a step budget. It returns the sender and `retries`. -/
def multicast_retry (ops : multicast_sender_ops S M) (msg : M) (id : vertex_id_t) :
    Nat → S → Nat → Option (S × Nat)
  | 0, _, _ => none
  | fuel + 1, sender, retries =>
    let retries1 := retries + 1
    let r := ops.add_dest (ops.init sender msg) id
    if r.1 then some (r.2, retries1) else multicast_retry ops msg id fuel r.2 retries1

/-- One iteration of the first `for` loop of `graph_engine::multicast_msg`. -/
def multicast_msg_step (ops : multicast_sender_ops S M) (map : vertex_id_t → Nat) (fuel : Nat)
    (msg : M) (senders : Nat → S) (id : vertex_id_t) : Outcome (Nat → S) :=
  let part_id := map id
  let r := first_attempt ops (senders part_id) id
  if r.1 then .ok (set_sender senders part_id r.2)
  else
    match multicast_retry ops msg id fuel r.2 0 with
    | none => .out_of_fuel
    | some (sender, retries) =>
      if retries ≤ 2 then .ok (set_sender senders part_id sender) else .assert_failed

/-- The first `for` loop of `graph_engine::multicast_msg`. -/
def multicast_msg_dests (ops : multicast_sender_ops S M) (map : vertex_id_t → Nat) (fuel : Nat)
    (msg : M) : (Nat → S) → List vertex_id_t → Outcome (Nat → S)
  | senders, [] => .ok senders
  | senders, id :: ids =>
    (multicast_msg_step ops map fuel msg senders id).bind
      (fun senders1 => multicast_msg_dests ops map fuel msg senders1 ids)

/-- The second `for` loop of `graph_engine::multicast_msg`, over the thread ids in `is`:
`if (sender->has_msg()) sender->end_multicast();`. -/
def end_multicasts (ops : multicast_sender_ops S M) : (Nat → S) → List Nat → (Nat → S)
  | senders, [] => senders
  | senders, i :: is =>
    let sender := senders i
    let senders1 := if ops.has_msg sender then set_sender senders i (ops.end_multicast sender)
      else senders
    end_multicasts ops senders1 is

/-- The template `graph_engine::multicast_msg(ids, num, msg)`. -/
def multicast_msg (ops : multicast_sender_ops S M) (map : vertex_id_t → Nat) (num_threads : Nat)
    (fuel : Nat) (senders : Nat → S) (ids : List vertex_id_t) (msg : M) : Outcome (Nat → S) :=
  (multicast_msg_dests ops map fuel msg senders ids).bind
    (fun senders1 => .ok (end_multicasts ops senders1 (List.range num_threads)))

/-- Modelled from the spec: the message header `vertex_message` of `messaging.h`, which is not
among the sources. The spec gives a message a destination vertex id, payload bytes and a kind;
the constructor call `vertex_message(size, activate)` of the engine gives it its size in bytes
and the activation flag. `dest` is `none` until `set_dest` is called. `P` is what a message
type derived from the header adds to it. -/
structure vertex_message (P : Type) where
  size : Nat
  activate : Bool
  dest : Option vertex_id_t
  payload : P
  deriving Repr, DecidableEq

/-- The constructor call `vertex_message msg(size, activate)`: a bare header. -/
def vertex_message.ctor (size : Nat) (activate : Bool) : vertex_message Unit :=
  { size := size, activate := activate, dest := none, payload := () }

/-- The member `set_dest(dest)` of a message. -/
def vertex_message.set_dest {P : Type} (msg : vertex_message P) (dest : vertex_id_t) :
    vertex_message P :=
  { msg with dest := some dest }

/-- One iteration of the `for` loop of `graph_engine::activate_vertices`;
`sizeof_vertex_message` is `sizeof(vertex_message)`. -/
def activate_vertices_step (ops : multicast_sender_ops S (vertex_message Unit))
    (map : vertex_id_t → Nat) (sizeof_vertex_message : Nat) (senders : Nat → S)
    (id : vertex_id_t) : Outcome (Nat → S) :=
  let part_id := map id
  let r := first_attempt ops (senders part_id) id
  if r.1 then .ok (set_sender senders part_id r.2)
  else
    let msg := vertex_message.ctor sizeof_vertex_message true
    let r2 := ops.add_dest (ops.init r.2 msg) id
    if r2.1 then .ok (set_sender senders part_id r2.2) else .assert_failed

/-- The member `graph_engine::activate_vertices(ids, num)`. -/
def activate_vertices (ops : multicast_sender_ops S (vertex_message Unit))
    (map : vertex_id_t → Nat) (sizeof_vertex_message : Nat) :
    (Nat → S) → List vertex_id_t → Outcome (Nat → S)
  | senders, [] => .ok senders
  | senders, id :: ids =>
    (activate_vertices_step ops map sizeof_vertex_message senders id).bind
      (fun senders1 => activate_vertices ops map sizeof_vertex_message senders1 ids)

/-- The member `graph_engine::activate_vertex(vertex)`: `activate_vertices(&vertex, 1)`. -/
def activate_vertex (ops : multicast_sender_ops S (vertex_message Unit))
    (map : vertex_id_t → Nat) (sizeof_vertex_message : Nat) (senders : Nat → S)
    (vertex : vertex_id_t) : Outcome (Nat → S) :=
  activate_vertices ops map sizeof_vertex_message senders [vertex]

/-- The template `graph_engine::send_msg(dest, msg)` over a point-to-point sender state `R`
and a message type `T` with the members `set_dest` and `send_cached`. The message is passed
by reference, so the call returns it next to the senders. -/
def send_msg {R T : Type} (send_cached : R → T → R) (set_dest : T → vertex_id_t → T)
    (map : vertex_id_t → Nat) (senders : Nat → R) (dest : vertex_id_t) (msg : T) :
    (Nat → R) × T :=
  let id := dest
  let part_id := map id
  let sender := senders part_id
  let msg1 := set_dest msg dest
  (set_sender senders part_id (send_cached sender msg1), msg1)

end engine

/-! ## The senders and the worker frontier -/

/-- One multicast: the header it was initialised with and the destinations aggregated
under it. -/
structure multicast_message (M : Type) where
  header : M
  dests : List vertex_id_t
  deriving Repr, DecidableEq

/-- Modelled from the spec: the class `multicast_msg_sender` of `messaging.h`, which is not
among the sources (the engine only calls it). Spec 4.4: the sender has `init(header)`,
`add_dest(id) -> bool` and `end_multicast()`; it aggregates many destinations under one
payload, and `add_dest` returns false when the current multicast buffer cannot hold another
destination. `curr` is the multicast being aggregated, `sent` the multicasts handed over for
delivery, oldest first. The number of destinations that a freshly initialised multicast
buffer can hold is the parameter `capacity` of `add_dest`. -/
structure multicast_msg_sender (M : Type) where
  curr : Option (multicast_message M)
  sent : List (multicast_message M)
  deriving Repr, DecidableEq

namespace multicast_msg_sender

variable {M : Type}

/-- Modelled from the spec: a sender as constructed, with nothing aggregated or sent. -/
def fresh : multicast_msg_sender M :=
  { curr := none, sent := [] }

/-- Modelled from the spec: `has_msg()`, whether a multicast is being aggregated. -/
def has_msg (s : multicast_msg_sender M) : Bool := s.curr.isSome

/-- Modelled from the spec: `init(header)` starts a fresh multicast under the payload `msg`;
a multicast that was being aggregated is handed over for delivery. -/
def init (s : multicast_msg_sender M) (msg : M) : multicast_msg_sender M :=
  { s with curr := some { header := msg, dests := [] }, sent := s.sent ++ s.curr.toList }

/-- Modelled from the spec: `add_dest(id)` appends the destination to the current multicast
and returns true, or returns false when the current multicast buffer cannot hold another
destination (or there is no current multicast). -/
def add_dest (capacity : Nat) (s : multicast_msg_sender M) (id : vertex_id_t) :
    Bool × multicast_msg_sender M :=
  match s.curr with
  | none => (false, s)
  | some m =>
    if m.dests.length < capacity then
      (true, { s with curr := some { m with dests := m.dests ++ [id] } })
    else (false, s)

/-- Modelled from the spec: `end_multicast()` closes the current multicast and hands it over
for delivery. -/
def end_multicast (s : multicast_msg_sender M) : multicast_msg_sender M :=
  { s with curr := none, sent := s.sent ++ s.curr.toList }

/-- Every multicast the sender holds, oldest first: the sent ones and the current one. -/
def all_msgs (s : multicast_msg_sender M) : List (multicast_message M) :=
  s.sent ++ s.curr.toList

/-- Every destination the sender holds, each with the header of the multicast that holds
it, in the order they were added. -/
def deliveries (s : multicast_msg_sender M) : List (M × vertex_id_t) :=
  s.all_msgs.flatMap (fun m => m.dests.map (fun id => (m.header, id)))

/-- Every destination the sender holds, in the order they were added. -/
def all_dests (s : multicast_msg_sender M) : List vertex_id_t :=
  s.all_msgs.flatMap (fun m => m.dests)

/-- The header of every multicast the sender holds, oldest first. -/
def headers (s : multicast_msg_sender M) : List M :=
  s.all_msgs.map (fun m => m.header)

end multicast_msg_sender

/-- The modelled `multicast_msg_sender` as the sender the engine calls; a freshly initialised
multicast buffer holds `capacity` destinations. -/
def spec_sender (M : Type) (capacity : Nat) : multicast_sender_ops (multicast_msg_sender M) M :=
  { has_msg := multicast_msg_sender.has_msg
    init := multicast_msg_sender.init
    add_dest := multicast_msg_sender.add_dest capacity
    end_multicast := multicast_msg_sender.end_multicast }

/-- Modelled from the spec: the class `simple_msg_sender` of `messaging.h`, which is not
among the sources. Spec 4.4: `send_cached(msg)` buffers one message; the buffer is flushed on
buffer-full or at the level boundary. `capacity` is the number of messages the buffer holds,
`buf` the buffered messages, `flushed` the messages already handed over, oldest first. -/
structure simple_msg_sender (T : Type) where
  capacity : Nat
  buf : List T
  flushed : List T
  deriving Repr, DecidableEq

/-- Modelled from the spec: `send_cached(msg)` buffers the message and flushes the buffer
when it is full. -/
def simple_msg_sender.send_cached {T : Type} (s : simple_msg_sender T) (msg : T) :
    simple_msg_sender T :=
  let buf1 := s.buf ++ [msg]
  if s.capacity ≤ buf1.length then { s with buf := [], flushed := s.flushed ++ buf1 }
  else { s with buf := buf1 }

/-- Every message the sender has accepted, oldest first. -/
def simple_msg_sender.accepted {T : Type} (s : simple_msg_sender T) : List T :=
  s.flushed ++ s.buf

/-- Modelled from the spec: the two activation bitmaps of a worker (spec 3 and 4.6; the
worker thread is not among the sources): `current` holds the vertices active in this
level, `next` the ones queued for the next level. -/
structure worker_frontier where
  current : vertex_id_t → Bool
  next : vertex_id_t → Bool

namespace worker_frontier

/-- Modelled from the spec: an activation message sets the `next` bit of its destination. -/
def on_activation (w : worker_frontier) (id : vertex_id_t) : worker_frontier :=
  { w with next := fun v => if v = id then true else w.next v }

/-- Modelled from the spec: the worker drains its inbox, one activation after the other. -/
def drain (w : worker_frontier) (dests : List vertex_id_t) : worker_frontier :=
  dests.foldl on_activation w

/-- Modelled from the spec: between the two barriers `current` and `next` are swapped, and
the bitmap that was consumed in the level is cleared. -/
def barrier_swap (w : worker_frontier) : worker_frontier :=
  { current := w.next, next := fun _ => false }

/-- Modelled from the spec: the vertices of `current` with an id up to `max_id`, in ascending
id order (`get_curr_activated_vertices`). -/
def get_curr_activated_vertices (w : worker_frontier) (max_id : vertex_id_t) :
    List vertex_id_t :=
  (List.range (max_id + 1)).filter w.current

end worker_frontier

/-- Modelled from the spec: the end of a level for the activations that the calling worker
holds for one destination worker. The activation sender is flushed, the destination worker
drains the activations from its inbox, and the barrier swaps its bitmaps. -/
def deliver_activations {M : Type} (sender : multicast_msg_sender M) (w : worker_frontier) :
    worker_frontier :=
  (w.drain sender.all_dests).barrier_swap

/-! ## The vertex program and its state machine -/

/-- The virtual members of `compute_vertex` that decide the course of a vertex program in a
level, over the user state `σ`: the pre-run `run(graph)`, `has_required_vertices()`,
`run(graph, vertex)` on the own adjacency list and `run_on_neighbors`. -/
structure compute_vertex (σ : Type) where
  run : σ → Bool × σ
  has_required_vertices : σ → Bool
  run_on_vertex : σ → σ
  run_on_neighbors : σ → σ

/-- A vertex program that keeps the defaults of `compute_vertex`: `run(graph)` returns true
and `has_required_vertices()` returns false; the pure virtual members are the user's. -/
def compute_vertex.defaults {σ : Type} (run_on_vertex run_on_neighbors : σ → σ) :
    compute_vertex σ :=
  { run := fun s => (true, s)
    has_required_vertices := fun _ => false
    run_on_vertex := run_on_vertex
    run_on_neighbors := run_on_neighbors }

/-- Modelled from the spec: the states of a vertex program within a level (spec 4.6). -/
inductive vertex_state where
  | IDLE | PRE_RUN | AWAIT_SELF | POST_SELF | AWAIT_NEIGH | DONE
  deriving Repr, DecidableEq

/-- Modelled from the spec: a vertex program in a level: its state, the user state, and how
often the program was handed its own adjacency list. -/
structure vertex_run (σ : Type) where
  state : vertex_state
  user : σ
  self_observed : Nat

/-- Modelled from the spec: one transition of the state machine of spec 4.6. -/
def vertex_run.step {σ : Type} (prog : compute_vertex σ) (r : vertex_run σ) : vertex_run σ :=
  match r.state with
  | .IDLE => { r with state := .PRE_RUN }
  | .PRE_RUN =>
    let p := prog.run r.user
    { r with state := if p.1 then .AWAIT_SELF else .POST_SELF, user := p.2 }
  | .AWAIT_SELF =>
    { state := .POST_SELF, user := prog.run_on_vertex r.user,
      self_observed := r.self_observed + 1 }
  | .POST_SELF =>
    { r with state := if prog.has_required_vertices r.user then .AWAIT_NEIGH else .DONE }
  | .AWAIT_NEIGH => { r with state := .POST_SELF, user := prog.run_on_neighbors r.user }
  | .DONE => r

/-- Modelled from the spec: the program after `n` transitions. -/
def vertex_run.steps {σ : Type} (prog : compute_vertex σ) : Nat → vertex_run σ → vertex_run σ
  | 0, r => r
  | n + 1, r => vertex_run.steps prog n (vertex_run.step prog r)

/-- Modelled from the spec: a vertex selected from `current` starts in `IDLE`. -/
def vertex_run.start {σ : Type} (user : σ) : vertex_run σ :=
  { state := .IDLE, user := user, self_observed := 0 }

/-! ## PageRank -/

/-- The edge directions of a directed graph. -/
inductive edge_type where
  | IN_EDGE | OUT_EDGE | BOTH_EDGES
  deriving Repr, DecidableEq

/-- Modelled from the spec: the page vertex of `vertex.h`, which is not among the sources: a
read-only view of the adjacency of one vertex that exposes `num_edges(direction)` and a
restartable sequence of neighbour ids for a direction (spec 4.3). -/
structure page_vertex where
  in_edges : List vertex_id_t
  out_edges : List vertex_id_t
  deriving Repr, DecidableEq

/-- Modelled from the spec: the ids from `get_neigh_begin(type)` to `get_neigh_end(type)`. -/
def page_vertex.neighs (vertex : page_vertex) : edge_type → List vertex_id_t
  | .IN_EDGE => vertex.in_edges
  | .OUT_EDGE => vertex.out_edges
  | .BOTH_EDGES => vertex.in_edges ++ vertex.out_edges

/-- Modelled from the spec: `get_num_edges(type)`, the length of the neighbour sequence. -/
def page_vertex.get_num_edges (vertex : page_vertex) (type : edge_type) : Nat :=
  (vertex.neighs type).length

/-- Modelled from the spec: the buffer `stack_array<vertex_id_t, 1024>` of `container.h`,
which is not among the sources: a buffer of the number of entries given to its constructor,
whatever that number is (design note on stack-allocated small buffers). -/
structure stack_array where
  buf : List vertex_id_t
  deriving Repr, DecidableEq

/-- Modelled from the spec: the constructor `stack_array(n)`. -/
def stack_array.ctor (n : Nat) : stack_array := { buf := List.replicate n 0 }

/-- Modelled from the spec: the assignment `buf[i] = id`; it fails outside the buffer. -/
def stack_array.assign (a : stack_array) (i : Nat) (id : vertex_id_t) : Option stack_array :=
  if i < a.buf.length then some { buf := a.buf.set i id } else none

/-- Modelled from the spec: `data()`, the entries of the buffer. -/
def stack_array.data (a : stack_array) : List vertex_id_t := a.buf

/-- The state of a `pgrank_vertex`: the rank of the current iteration, and the edge counts
`get_num_in_edges()` and `get_num_out_edges()` of `compute_directed_vertex`. Ranks are exact
rationals in place of `float`. -/
structure pgrank_vertex where
  curr_itr_pr : ℚ
  num_in_edges : Nat
  num_out_edges : Nat
  deriving Repr, DecidableEq

/-- The initial value of the global `TOLERANCE`, which the program never changes. -/
def TOLERANCE : ℚ := 1 / 100

/-- The initial value of the global `DAMPING_FACTOR`, before `main` reads the argument. -/
def DAMPING_FACTOR_default : ℚ := 85 / 100

/-- The check of `main` on the damping factor read from the command line: the program exits
when `DAMPING_FACTOR < 0 || DAMPING_FACTOR > 1`. -/
def damping_factor_accepted (DAMPING_FACTOR : ℚ) : Bool :=
  !(decide (DAMPING_FACTOR < 0) || decide (DAMPING_FACTOR > 1))

/-- The constructor `pgrank_vertex(id, index)`: `curr_itr_pr = 1 - DAMPING_FACTOR`. -/
def pgrank_vertex.ctor (DAMPING_FACTOR : ℚ) (num_in_edges num_out_edges : Nat) :
    pgrank_vertex :=
  { curr_itr_pr := 1 - DAMPING_FACTOR, num_in_edges := num_in_edges,
    num_out_edges := num_out_edges }

/-- The gather loop of `pgrank_vertex::run`:
`accum += v.get_curr_itr_pr() / v.get_num_out_edges()` for every in-neighbour. -/
def pgrank_gather (graph : vertex_id_t → pgrank_vertex) (in_edges : List vertex_id_t) : ℚ :=
  in_edges.foldl
    (fun accum id => accum + (graph id).curr_itr_pr / ((graph id).num_out_edges : ℚ)) 0

/-- The loop of the scatter phase: `dest_buf[num_dests++] = id` for every out-neighbour. -/
def pgrank_fill : stack_array → Nat → List vertex_id_t → Option (stack_array × Nat)
  | dest_buf, num_dests, [] => some (dest_buf, num_dests)
  | dest_buf, num_dests, id :: ids =>
    match dest_buf.assign num_dests id with
    | none => none
    | some dest_buf1 => pgrank_fill dest_buf1 (num_dests + 1) ids

/-- What a call of `pgrank_vertex::run(graph, vertex)` leaves behind: the vertex, the value
of `last_change`, and the arguments `(ids, num)` of the call of `graph.activate_vertices`
when it is made. -/
structure pgrank_run where
  self : pgrank_vertex
  last_change : ℚ
  activated : Option (List vertex_id_t × Nat)
  deriving Repr, DecidableEq

/-- The member `pgrank_vertex::run(graph, vertex)`. `graph` is `graph.get_vertex`. The result
is `none` when an assignment to `dest_buf` is outside the buffer. -/
def pgrank_vertex.run (DAMPING_FACTOR TOLERANCE : ℚ) (graph : vertex_id_t → pgrank_vertex)
    (self : pgrank_vertex) (vertex : page_vertex) : Option pgrank_run :=
  let accum := pgrank_gather graph (vertex.neighs .IN_EDGE)
  let new_pr := (1 - DAMPING_FACTOR) + DAMPING_FACTOR * accum
  let last_change := if self.num_in_edges > 0 then new_pr - self.curr_itr_pr else 0
  let self1 := if self.num_in_edges > 0 then { self with curr_itr_pr := new_pr } else self
  if abs last_change > TOLERANCE then
    let dest_buf := stack_array.ctor (vertex.get_num_edges .OUT_EDGE)
    match pgrank_fill dest_buf 0 (vertex.neighs .OUT_EDGE) with
    | none => none
    | some (dest_buf1, num_dests) =>
      if num_dests > 0 then
        some { self := self1, last_change := last_change,
               activated := some (dest_buf1.data, num_dests) }
      else some { self := self1, last_change := last_change, activated := none }
  else some { self := self1, last_change := last_change, activated := none }

/-- The vertex states of a graph as built by the index: every vertex is constructed with the
edge counts of its adjacency. -/
def pgrank_start (DAMPING_FACTOR : ℚ) (page : vertex_id_t → page_vertex) :
    vertex_id_t → pgrank_vertex :=
  fun v => pgrank_vertex.ctor DAMPING_FACTOR (page v).in_edges.length (page v).out_edges.length

/-- The engine runs vertex `v` on its adjacency: the vertex state of `v` is replaced by the
one `run` leaves behind. -/
def pgrank_run_vertex (DAMPING_FACTOR TOLERANCE : ℚ) (page : vertex_id_t → page_vertex)
    (graph : vertex_id_t → pgrank_vertex) (v : vertex_id_t) : vertex_id_t → pgrank_vertex :=
  match pgrank_vertex.run DAMPING_FACTOR TOLERANCE graph (graph v) (page v) with
  | none => graph
  | some r => fun u => if u = v then r.self else graph u

/-- The vertex states after the engine has run the vertices of `schedule`, one after the
other, over any number of levels. -/
def pgrank_run_schedule (DAMPING_FACTOR TOLERANCE : ℚ) (page : vertex_id_t → page_vertex)
    (graph : vertex_id_t → pgrank_vertex) (schedule : List vertex_id_t) :
    vertex_id_t → pgrank_vertex :=
  schedule.foldl (pgrank_run_vertex DAMPING_FACTOR TOLERANCE page) graph

/-! ## Raw data arrays -/

/-- The memory behind the arrays: the byte at an offset of an allocated block. Every
`numa_alloc_onnode` returns a block of its own. -/
abbrev memory := Nat → Nat → Nat

/-- A `char *`: a block and an offset into it. -/
structure raw_pointer where
  block : Nat
  off : Nat
  deriving Repr, DecidableEq

/-- The members of `raw_data_array`. The shared pointer `data` holds the address of an
allocated block, so it is the block itself. -/
structure raw_data_array where
  node_id : Int
  num_bytes : Nat
  data : Nat
  start : raw_pointer
  num_used_bytes : Nat
  deriving Repr, DecidableEq

/-- The call `memcpy(dst, src, n)` between the starts of two blocks. -/
def memcpy (mem : memory) (dst src : Nat) (n : Nat) : memory :=
  fun b i => if b = dst ∧ i < n then mem src i else mem b i

/-- The member `raw_data_array::copy_from(arr)`: the returned `bool` and the memory after
the call. `has_entire_array` is the member of that name, which the header defines. -/
def raw_data_array.copy_from (has_entire_array : raw_data_array → Bool) (mem : memory)
    (self arr : raw_data_array) : Bool × memory :=
  if !has_entire_array self || !has_entire_array arr then (false, mem)
  else if self.num_bytes != arr.num_bytes then (false, mem)
  else (true, memcpy mem self.data arr.data self.num_bytes)

/-- What one destination does to a modelled sender whose buffer holds at least one
destination: it joins the current multicast, or a fresh multicast under `msg` that
replaces it. -/
def pushed {M : Type} (msg : M) (id : vertex_id_t) (s s1 : multicast_msg_sender M) : Prop :=
  (∃ m0, s.curr = some m0 ∧ s1.curr = some { header := m0.header, dests := m0.dests ++ [id] }
      ∧ s1.sent = s.sent) ∨
   (s1.curr = some { header := msg, dests := [id] } ∧ s1.sent = s.sent ++ s.curr.toList)

/-- What a list of destinations does to a modelled sender, one after the other. -/
def pushed_list {M : Type} (msg : M) :
    List vertex_id_t → multicast_msg_sender M → multicast_msg_sender M → Prop
  | [], s, s1 => s1 = s
  | id :: ids, s, s1 => ∃ s0, pushed msg id s s0 ∧ pushed_list msg ids s0 s1

/-- The header of the multicast being aggregated, if any, is `msg`. -/
def curr_header_is {M : Type} (msg : M) (s : multicast_msg_sender M) : Prop :=
  ∀ m, s.curr = some m → m.header = msg

/-- The multicast senders of a worker between two calls of `multicast_msg`: they are as
constructed, or as a call of `multicast_msg` that returned has left them
(`get_multicast_sender` is private to the engine and `multicast_msg` is its only user). -/
inductive multicast_reachable {M : Type} (capacity : Nat) (map : vertex_id_t → Nat)
    (num_threads : Nat) : (Nat → multicast_msg_sender M) → Prop where
  | start : multicast_reachable capacity map num_threads (fun _ => multicast_msg_sender.fresh)
  | call (fuel : Nat) (senders senders1 : Nat → multicast_msg_sender M)
      (ids : List vertex_id_t) (msg : M) :
      multicast_reachable capacity map num_threads senders →
      multicast_msg (spec_sender M capacity) map num_threads fuel senders ids msg
        = .ok senders1 →
      multicast_reachable capacity map num_threads senders1

/-- A vertex program calls `activate_vertex(vertex)` `n` times in a row. -/
def activate_vertex_times {S : Type} (ops : multicast_sender_ops S (vertex_message Unit))
    (map : vertex_id_t → Nat) (sizeof_vertex_message : Nat) :
    Nat → (Nat → S) → vertex_id_t → Outcome (Nat → S)
  | 0, senders, _ => .ok senders
  | n + 1, senders, vertex =>
    (activate_vertex ops map sizeof_vertex_message senders vertex).bind
      (fun senders1 => activate_vertex_times ops map sizeof_vertex_message n senders1 vertex)

/-- The in- and out-adjacency of the vertices `0 .. N-1` describe one edge set: every
in-neighbour is a vertex of the graph, and the out-degree of a vertex is the number of times
the in-neighbour lists name it. -/
def pgrank_graph_ok (N : Nat) (page : vertex_id_t → page_vertex) : Prop :=
  (∀ v, v < N → ∀ u ∈ (page v).in_edges, u < N) ∧
  (∀ u, u < N →
    ∑ v in Finset.range N, (page v).in_edges.count u = (page u).out_edges.length)

/-- A star: the vertices 1 to 7 each have one edge, to vertex 0. -/
def pgrank_star : vertex_id_t → page_vertex :=
  fun v =>
    if v = 0 then { in_edges := [1, 2, 3, 4, 5, 6, 7], out_edges := [] }
    else if v ≤ 7 then { in_edges := [], out_edges := [0] }
    else { in_edges := [], out_edges := [] }

/-- What every run of the vertices keeps true of the vertex states: the edge counts are
those of the adjacency, no rank is below `1 - DAMPING_FACTOR`, no rank is above what its
update would write now, and all ranks are zero when the damping factor is one. -/
def pgrank_inv (DAMPING_FACTOR : ℚ) (page : vertex_id_t → page_vertex)
    (graph : vertex_id_t → pgrank_vertex) : Prop :=
  (∀ u, (graph u).num_in_edges = (page u).in_edges.length ∧
    (graph u).num_out_edges = (page u).out_edges.length) ∧
  (∀ u, 1 - DAMPING_FACTOR ≤ (graph u).curr_itr_pr) ∧
  (∀ v, (graph v).curr_itr_pr
    ≤ (1 - DAMPING_FACTOR) + DAMPING_FACTOR * pgrank_gather graph (page v).in_edges) ∧
  (DAMPING_FACTOR = 1 → ∀ u, (graph u).curr_itr_pr = 0)

/-! ## Raw data arrays: deep_copy and set_array_ranges -/

/-- The pointer `p + n`. -/
def raw_pointer.add (p : raw_pointer) (n : Nat) : raw_pointer :=
  { block := p.block, off := p.off + n }

/-- The member `raw_data_array::deep_copy()`. `addr` is the block that `numa_alloc_onnode`
returns, and `has_entire_array` is the member of that name, which the header defines. The
result is the returned array and the memory after the call. -/
def raw_data_array.deep_copy (has_entire_array : raw_data_array → Bool) (mem : memory)
    (addr : Nat) (self : raw_data_array) : Outcome (raw_data_array × memory) :=
  if has_entire_array self then
    let ret := self
    let mem1 := memcpy mem addr self.data self.num_bytes
    let ret1 := { ret with data := addr }
    let ret2 := { ret1 with start := { block := self.data, off := 0 } }
    .ok (ret2, mem1)
  else .assert_failed

/-- A store of one byte through a pointer: `p[i] = byte`. -/
def store_byte (mem : memory) (p : raw_pointer) (i : Nat) (byte : Nat) : memory :=
  fun b j => if b = p.block ∧ j = p.off + i then byte else mem b j

/-- The `double` arithmetic that `ceil_divide` relies on, over any carrier `D` of the
`double` values: the conversion `(double) v` of a size, the quotient, `ceil`, and the
conversion of the result back to a size. Nothing is assumed of them here. -/
structure double_ops (D : Type) where
  of_size : Nat → D
  div : D → D → D
  ceil : D → D
  to_size : D → Nat

/-- The exact arithmetic of the rationals as an instance of the `double` arithmetic. -/
def rat_double : double_ops ℚ :=
  { of_size := fun n => (n : ℚ)
    div := fun a b => a / b
    ceil := fun a => ((Nat.ceil a : Nat) : ℚ)
    to_size := fun a => Nat.floor a }

/-- The template `ceil_divide(v1, v2)`: `ceil(((double) v1) / v2)`, converted to the type of
the sizes. -/
def ceil_divide {D : Type} (dbl : double_ops D) (v1 v2 : Nat) : Nat :=
  dbl.to_size (dbl.ceil (dbl.div (dbl.of_size v1) (dbl.of_size v2)))

/-- The ceiling of the exact quotient of two sizes. -/
def ceil_quotient (v1 v2 : Nat) : Nat := Nat.ceil ((v1 : ℚ) / (v2 : ℚ))

/-- The `double` arithmetic gives `ceil_divide` its exact value on sizes below 2^53, where
the conversion to `double` loses nothing and the rounded quotient of two such sizes has the
ceiling of the exact one. Above 2^53 nothing is required. -/
def double_exact {D : Type} (dbl : double_ops D) : Prop :=
  ∀ v1 v2 : Nat, v1 < 2 ^ 53 → v2 < 2 ^ 53 → 1 ≤ v2 →
    ceil_divide dbl v1 v2 = ceil_quotient v1 v2

/-- The arguments of one call `set_range.set(to_buf + off, size, off, node_id)`. -/
structure set_range_call where
  buf : raw_pointer
  size : Nat
  off : Nat
  node_id : Int
  deriving Repr, DecidableEq

/-- The members of `set_data_task` that its constructor sets; `to_off`, `to_size` and
`range_size` are in bytes. -/
structure set_data_task where
  to_buf : raw_pointer
  to_off : Nat
  to_size : Nat
  node_id : Int
  range_size : Nat
  deriving Repr, DecidableEq

/-- The loop of `set_data_task::run()` from `rel_off` on, with a step budget: the calls of
`set_range.set` in the order they are made, or `none` when the budget does not suffice. -/
def set_data_task.run_loop (t : set_data_task) : Nat → Nat → Option (List set_range_call)
  | 0, rel_off => if rel_off < t.to_size then none else some []
  | fuel + 1, rel_off =>
    if rel_off < t.to_size then
      let size := min (t.to_size - rel_off) t.range_size
      let off := t.to_off + rel_off
      (set_data_task.run_loop t fuel (rel_off + t.range_size)).map
        (fun calls =>
          { buf := t.to_buf.add off, size := size, off := off, node_id := t.node_id } :: calls)
    else some []

/-- The member `set_data_task::run()`. -/
def set_data_task.run (t : set_data_task) (fuel : Nat) : Option (List set_range_call) :=
  t.run_loop fuel 0

/-- The body of the outer loop of `set_array_ranges` for one array: the tasks handed to the
memory threads of the node, for `j` from 0 up to `nthreads_per_node`. `local_len` is
`local_lens[i]`, `range_size` is `mapper.get_range_size()`, `to_buf` is `arrs[i].get_raw()`
and `node_id` is `arrs[i].get_node_id()`. The `size_t` and `off_t` values are natural
numbers: these are the values the code computes as long as none of them reaches 2^63, which
the theorem on `set_array_ranges` proves of every value that occurs, from a bound on the
sizes. -/
def set_array_tasks {D : Type} (dbl : double_ops D)
    (nthreads_per_node local_len entry_size range_size : Nat)
    (to_buf : raw_pointer) (node_id : Int) : List set_data_task :=
  let num_local_bytes := local_len * entry_size
  let nranges := ceil_divide dbl local_len range_size
  let nranges_per_thread := ceil_divide dbl nranges nthreads_per_node
  let nbytes_per_thread := nranges_per_thread * range_size * entry_size
  (List.range nthreads_per_node).filterMap (fun j =>
    if num_local_bytes ≤ nbytes_per_thread * j then none
    else
      let local_nbytes := min nbytes_per_thread (num_local_bytes - nbytes_per_thread * j)
      some { to_buf := to_buf, to_off := nbytes_per_thread * j, to_size := local_nbytes,
             node_id := node_id, range_size := range_size * entry_size })

/-- The outer loop of `set_array_ranges` from array `i` on: the tasks issued for each
array. -/
def set_array_ranges_from {D : Type} (dbl : double_ops D) (nthreads_per_node : Nat)
    (local_lens : Nat → Nat) (entry_size range_size : Nat)
    (get_raw : raw_data_array → raw_pointer) :
    Nat → List raw_data_array → List (List set_data_task)
  | _, [] => []
  | i, arr :: arrs =>
    set_array_tasks dbl nthreads_per_node (local_lens i) entry_size range_size (get_raw arr)
        arr.node_id
      :: set_array_ranges_from dbl nthreads_per_node local_lens entry_size range_size get_raw
          (i + 1) arrs

/-- The function `set_array_ranges(mapper, length, entry_size, set_range, arrs)`: the tasks
issued for each array. `num_threads` and `num_nodes` are those of `matrix_conf`,
`local_lens` is `mapper.cal_local_lengths(length)`, `range_size` is
`mapper.get_range_size()`, and `get_raw` is the member of that name, which the header
defines. -/
def set_array_ranges {D : Type} (dbl : double_ops D) (num_threads num_nodes : Nat)
    (local_lens : Nat → Nat) (entry_size range_size : Nat)
    (get_raw : raw_data_array → raw_pointer)
    (arrs : List raw_data_array) : List (List set_data_task) :=
  let nthreads_per_node := num_threads / num_nodes
  set_array_ranges_from dbl nthreads_per_node local_lens entry_size range_size get_raw 0 arrs

/-- The memory threads run the tasks of one array: all calls of `set_range.set`, task by
task, or `none` when the step budget of a task does not suffice. -/
def run_tasks (fuel : Nat) : List set_data_task → Option (List set_range_call)
  | [] => some []
  | t :: ts =>
    match t.run fuel, run_tasks fuel ts with
    | some calls, some rest => some (calls ++ rest)
    | _, _ => none

/-- The byte intervals of the calls follow one another from `a` to `b` without a gap, and
none is empty. -/
def tiles : Nat → Nat → List set_range_call → Prop
  | a, b, [] => a = b
  | a, b, c :: cs => c.off = a ∧ 0 < c.size ∧ tiles (a + c.size) b cs

/-- The sender after one round of the loop of `multicast_msg`: `init(msg)` and then
`add_dest(id)`. -/
def retry_round {S M : Type} (ops : multicast_sender_ops S M) (msg : M) (id : vertex_id_t)
    (sender : S) : S :=
  (ops.add_dest (ops.init sender msg) id).2

/-- Whether `add_dest(id)` returns true in a round of the loop that starts from `sender`. -/
def retry_ok {S M : Type} (ops : multicast_sender_ops S M) (msg : M) (id : vertex_id_t)
    (sender : S) : Bool :=
  (ops.add_dest (ops.init sender msg) id).1

/-- The senders after one destination when the loop of `multicast_msg` needs one round: the
sender of the worker is left by the first `add_dest` when that returns true, and by one
`init(msg)` and one more `add_dest` otherwise. -/
def multicast_once {S M : Type} (ops : multicast_sender_ops S M) (map : vertex_id_t → Nat)
    (msg : M) (senders : Nat → S) (id : vertex_id_t) : Nat → S :=
  set_sender senders (map id)
    (if (first_attempt ops (senders (map id)) id).1
      then (first_attempt ops (senders (map id)) id).2
      else retry_round ops msg id (first_attempt ops (senders (map id)) id).2)

/-- A sender that only counts its `init` calls and takes a destination from its `k`-th
`init` on: a multicast buffer that is too small until then. -/
def ops_after_inits (M : Type) (k : Nat) : multicast_sender_ops Nat M :=
  { has_msg := fun s => decide (0 < s)
    init := fun s _ => s + 1
    add_dest := fun s _ => (decide (k ≤ s), s)
    end_multicast := fun s => s }

/-! ## PageRank over the float arithmetic of the program -/

/-- The `float` arithmetic that `pgrank_vertex::run` relies on, over any carrier `F` of the
`float` values: the conversion of an integer, the four operations, `std::fabs`, and the
comparison `>`. Nothing is assumed of them, so what is proved of `fp.pgrank_vertex.run`
holds for the arithmetic of the machine, with its rounding, infinities and NaN. -/
structure float_ops (F : Type) where
  of_int : Nat → F
  add : F → F → F
  sub : F → F → F
  mul : F → F → F
  div : F → F → F
  fabs : F → F
  gt : F → F → Bool

/-- The exact arithmetic of the rationals as an instance of the arithmetic. -/
def rat_float : float_ops ℚ :=
  { of_int := fun n => (n : ℚ)
    add := fun a b => a + b
    sub := fun a b => a - b
    mul := fun a b => a * b
    div := fun a b => a / b
    fabs := fun a => abs a
    gt := fun a b => decide (a > b) }

namespace fp

/-- The state of a `pgrank_vertex` with a rank in the float arithmetic. -/
structure pgrank_vertex (F : Type) where
  curr_itr_pr : F
  num_in_edges : Nat
  num_out_edges : Nat

/-- The gather loop of `pgrank_vertex::run`, `float accum = 0` and then
`accum += v.get_curr_itr_pr() / v.get_num_out_edges()` for every in-neighbour, in the float
arithmetic. -/
def pgrank_gather {F : Type} (fl : float_ops F) (graph : vertex_id_t → pgrank_vertex F)
    (in_edges : List vertex_id_t) : F :=
  in_edges.foldl
    (fun accum id =>
      fl.add accum (fl.div (graph id).curr_itr_pr (fl.of_int (graph id).num_out_edges)))
    (fl.of_int 0)

/-- What a call of `pgrank_vertex::run(graph, vertex)` leaves behind: the vertex, the value
of `last_change`, and the arguments `(ids, num)` of the call of `graph.activate_vertices`
when it is made. -/
structure pgrank_run (F : Type) where
  self : pgrank_vertex F
  last_change : F
  activated : Option (List vertex_id_t × Nat)

/-- The member `pgrank_vertex::run(graph, vertex)` in the float arithmetic. `graph` is
`graph.get_vertex`, `DAMPING_FACTOR` and `TOLERANCE` are the values of the globals. The
result is `none` when an assignment to `dest_buf` is outside the buffer. -/
def pgrank_vertex.run {F : Type} (fl : float_ops F) (DAMPING_FACTOR TOLERANCE : F)
    (graph : vertex_id_t → pgrank_vertex F) (self : pgrank_vertex F)
    (vertex : page_vertex) : Option (pgrank_run F) :=
  let accum := pgrank_gather fl graph (vertex.neighs .IN_EDGE)
  let new_pr := fl.add (fl.sub (fl.of_int 1) DAMPING_FACTOR) (fl.mul DAMPING_FACTOR accum)
  let last_change :=
    if self.num_in_edges > 0 then fl.sub new_pr self.curr_itr_pr else fl.of_int 0
  let self1 := if self.num_in_edges > 0 then { self with curr_itr_pr := new_pr } else self
  if fl.gt (fl.fabs last_change) TOLERANCE then
    let dest_buf := stack_array.ctor (vertex.get_num_edges .OUT_EDGE)
    match pgrank_fill dest_buf 0 (vertex.neighs .OUT_EDGE) with
    | none => none
    | some (dest_buf1, num_dests) =>
      if num_dests > 0 then
        some { self := self1, last_change := last_change,
               activated := some (dest_buf1.data, num_dests) }
      else some { self := self1, last_change := last_change, activated := none }
  else some { self := self1, last_change := last_change, activated := none }

end fp

/-- A vertex with a rational rank as a vertex of the float arithmetic over the rationals. -/
def pgrank_vertex.to_fp (v : pgrank_vertex) : fp.pgrank_vertex ℚ :=
  { curr_itr_pr := v.curr_itr_pr, num_in_edges := v.num_in_edges,
    num_out_edges := v.num_out_edges }

/-! ## Lemmas on the senders -/

section sender_lemmas

variable {S M : Type}

theorem set_sender_same (senders : Nat → S) (i : Nat) (s : S) :
    set_sender senders i s i = s := by
  simp [set_sender]

theorem set_sender_other (senders : Nat → S) (i j : Nat) (s : S) (h : j ≠ i) :
    set_sender senders i s j = senders j := by
  simp [set_sender, h]

/-- When a freshly initialised multicast accepts a destination, the loop of `multicast_msg`
ends after its first round. -/
theorem multicast_retry_once (ops : multicast_sender_ops S M) (msg : M) (id : vertex_id_t)
    (fuel : Nat) (sender : S) (retries : Nat)
    (h : (ops.add_dest (ops.init sender msg) id).1 = true) :
    multicast_retry ops msg id (fuel + 1) sender retries
      = some ((ops.add_dest (ops.init sender msg) id).2, retries + 1) := by
  simp [multicast_retry, h]

theorem spec_first_attempt_fail (c : Nat) (s : multicast_msg_sender M) (id : vertex_id_t)
    (h : (first_attempt (spec_sender M c) s id).1 = false) :
    (first_attempt (spec_sender M c) s id).2 = s := by
  unfold first_attempt at *
  simp only [spec_sender, multicast_msg_sender.has_msg, multicast_msg_sender.add_dest] at *
  cases hc : s.curr with
  | none => simp
  | some m =>
    simp only [hc, Option.isSome_some, if_true] at h ⊢
    by_cases hl : m.dests.length < c
    · simp [hl] at h
    · simp [hl]

theorem spec_first_attempt_ok (c : Nat) (s : multicast_msg_sender M) (msg : M)
    (id : vertex_id_t) (h : (first_attempt (spec_sender M c) s id).1 = true) :
    pushed msg id s (first_attempt (spec_sender M c) s id).2 := by
  unfold first_attempt at *
  simp only [spec_sender, multicast_msg_sender.has_msg, multicast_msg_sender.add_dest] at *
  cases hc : s.curr with
  | none => simp [hc] at h
  | some m =>
    simp only [hc, Option.isSome_some, if_true] at h ⊢
    by_cases hl : m.dests.length < c
    · simp only [hl, if_true]
      exact Or.inl ⟨m, hc, rfl, rfl⟩
    · simp [hl] at h

theorem spec_init_add (c : Nat) (s : multicast_msg_sender M) (msg : M) (id : vertex_id_t)
    (hcap : 0 < c) :
    ((spec_sender M c).add_dest ((spec_sender M c).init s msg) id).1 = true ∧
    pushed msg id s ((spec_sender M c).add_dest ((spec_sender M c).init s msg) id).2 := by
  simp only [spec_sender, multicast_msg_sender.init, multicast_msg_sender.add_dest,
    List.length_nil, hcap, if_true, true_and]
  exact Or.inr ⟨rfl, rfl⟩

theorem spec_init_add_zero (s : multicast_msg_sender M) (msg : M) (id : vertex_id_t) :
    ((spec_sender M 0).add_dest ((spec_sender M 0).init s msg) id).1 = false := by
  simp [spec_sender, multicast_msg_sender.init, multicast_msg_sender.add_dest]

theorem multicast_step_spec (c : Nat) (hcap : 0 < c) (map : vertex_id_t → Nat) (fuel : Nat)
    (msg : M) (senders : Nat → multicast_msg_sender M) (id : vertex_id_t) :
    ∃ s1, multicast_msg_step (spec_sender M c) map (fuel + 1) msg senders id
        = .ok (set_sender senders (map id) s1) ∧ pushed msg id (senders (map id)) s1 := by
  unfold multicast_msg_step
  cases h : (first_attempt (spec_sender M c) (senders (map id)) id).1 with
  | true =>
    exact ⟨_, by simp [h], spec_first_attempt_ok c _ msg id h⟩
  | false =>
    have h2 := spec_first_attempt_fail c _ id h
    have h3 := spec_init_add c (senders (map id)) msg id hcap
    refine ⟨_, ?_, h3.2⟩
    simp [h, h2, multicast_retry_once (spec_sender M c) msg id fuel _ 0 h3.1]

theorem activate_step_spec (c : Nat) (hcap : 0 < c) (map : vertex_id_t → Nat)
    (sizeof_vertex_message : Nat)
    (senders : Nat → multicast_msg_sender (vertex_message Unit)) (id : vertex_id_t) :
    ∃ s1, activate_vertices_step (spec_sender _ c) map sizeof_vertex_message senders id
        = .ok (set_sender senders (map id) s1) ∧
      pushed (vertex_message.ctor sizeof_vertex_message true) id (senders (map id)) s1 := by
  unfold activate_vertices_step
  cases h : (first_attempt (spec_sender _ c) (senders (map id)) id).1 with
  | true =>
    exact ⟨_, by simp [h], spec_first_attempt_ok c _ _ id h⟩
  | false =>
    have h2 := spec_first_attempt_fail c _ id h
    have h3 := spec_init_add c (senders (map id))
      (vertex_message.ctor sizeof_vertex_message true) id hcap
    refine ⟨_, ?_, h3.2⟩
    simp [h, h2, h3.1]

/-- Both loops over the destinations leave every sender as its own destinations, in list
order, leave it. -/
theorem pushed_list_loop (msg : M)
    (step : (Nat → multicast_msg_sender M) → vertex_id_t → Outcome (Nat → multicast_msg_sender M))
    (loop : (Nat → multicast_msg_sender M) → List vertex_id_t
      → Outcome (Nat → multicast_msg_sender M))
    (map : vertex_id_t → Nat)
    (hnil : ∀ senders, loop senders [] = .ok senders)
    (hcons : ∀ senders id ids, loop senders (id :: ids)
      = (step senders id).bind (fun senders1 => loop senders1 ids))
    (hstep : ∀ senders id,
      ∃ s1, step senders id = .ok (set_sender senders (map id) s1) ∧
        pushed msg id (senders (map id)) s1) :
    ∀ (ids : List vertex_id_t) (senders : Nat → multicast_msg_sender M),
      ∃ senders1, loop senders ids = .ok senders1 ∧
        ∀ w, pushed_list msg (ids.filter (fun id => map id = w)) (senders w) (senders1 w)
  | [], senders => ⟨senders, hnil senders, fun w => by simp [pushed_list]⟩
  | id :: ids, senders => by
    obtain ⟨s1, hs1, hp⟩ := hstep senders id
    obtain ⟨senders1, hl, hall⟩ :=
      pushed_list_loop msg step loop map hnil hcons hstep ids (set_sender senders (map id) s1)
    refine ⟨senders1, ?_, ?_⟩
    · rw [hcons, hs1]
      exact hl
    · intro w
      have hw := hall w
      by_cases he : map id = w
      · subst he
        rw [set_sender_same] at hw
        simp only [List.filter_cons, decide_True, if_true]
        exact ⟨s1, hp, hw⟩
      · rw [set_sender_other _ _ _ _ (Ne.symm he)] at hw
        simp only [List.filter_cons, he, decide_False]
        simpa using hw

theorem pushed_all_dests {msg : M} {id : vertex_id_t} {s s1 : multicast_msg_sender M}
    (h : pushed msg id s s1) : s1.all_dests = s.all_dests ++ [id] := by
  obtain h | h := h
  · obtain ⟨m0, hc, hc1, hs⟩ := h
    simp [multicast_msg_sender.all_dests, multicast_msg_sender.all_msgs, hc, hc1, hs]
  · obtain ⟨hc1, hs⟩ := h
    simp [multicast_msg_sender.all_dests, multicast_msg_sender.all_msgs, hc1, hs]

theorem pushed_list_all_dests {msg : M} :
    ∀ (ids : List vertex_id_t) (s s1 : multicast_msg_sender M),
      pushed_list msg ids s s1 → s1.all_dests = s.all_dests ++ ids
  | [], s, s1, h => by simp [pushed_list] at h; simp [h]
  | id :: ids, s, s1, h => by
    obtain ⟨s0, h0, h1⟩ := h
    rw [pushed_list_all_dests ids s0 s1 h1, pushed_all_dests h0]
    simp

theorem pushed_deliveries {msg : M} {id : vertex_id_t} {s s1 : multicast_msg_sender M}
    (h : pushed msg id s s1) (hinv : curr_header_is msg s) :
    s1.deliveries = s.deliveries ++ [(msg, id)] ∧ curr_header_is msg s1 := by
  obtain h | h := h
  · obtain ⟨m0, hc, hc1, hs⟩ := h
    have hm := hinv m0 hc
    refine ⟨?_, ?_⟩
    · simp [multicast_msg_sender.deliveries, multicast_msg_sender.all_msgs, hc, hc1, hs, hm]
    · intro m hm1
      rw [hc1] at hm1
      cases hm1
      exact hm
  · obtain ⟨hc1, hs⟩ := h
    refine ⟨?_, ?_⟩
    · simp [multicast_msg_sender.deliveries, multicast_msg_sender.all_msgs, hc1, hs]
    · intro m hm1
      rw [hc1] at hm1
      cases hm1
      rfl

theorem pushed_list_deliveries {msg : M} :
    ∀ (ids : List vertex_id_t) (s s1 : multicast_msg_sender M),
      pushed_list msg ids s s1 → curr_header_is msg s →
      s1.deliveries = s.deliveries ++ ids.map (fun id => (msg, id)) ∧ curr_header_is msg s1
  | [], s, s1, h, hinv => by simp [pushed_list] at h; simp [h, hinv]
  | id :: ids, s, s1, h, hinv => by
    obtain ⟨s0, h0, h1⟩ := h
    obtain ⟨hd0, hinv0⟩ := pushed_deliveries h0 hinv
    obtain ⟨hd1, hinv1⟩ := pushed_list_deliveries ids s0 s1 h1 hinv0
    exact ⟨by rw [hd1, hd0]; simp, hinv1⟩

theorem pushed_sent {msg : M} {id : vertex_id_t} {s s1 : multicast_msg_sender M}
    (h : pushed msg id s s1) (hinv : curr_header_is msg s) :
    ∃ new, s1.sent = s.sent ++ new ∧ ∀ m ∈ new, m.header = msg := by
  obtain h | h := h
  · obtain ⟨m0, _, _, hs⟩ := h
    exact ⟨[], by simp [hs], by simp⟩
  · obtain ⟨_, hs⟩ := h
    refine ⟨s.curr.toList, hs, ?_⟩
    intro m hm
    exact hinv m (by simpa [Option.mem_toList] using hm)

theorem pushed_list_sent {msg : M} :
    ∀ (ids : List vertex_id_t) (s s1 : multicast_msg_sender M),
      pushed_list msg ids s s1 → curr_header_is msg s →
      ∃ new, s1.sent = s.sent ++ new ∧ ∀ m ∈ new, m.header = msg
  | [], s, s1, h, _ => by simp [pushed_list] at h; exact ⟨[], by simp [h], by simp⟩
  | id :: ids, s, s1, h, hinv => by
    obtain ⟨s0, h0, h1⟩ := h
    obtain ⟨new0, hs0, hn0⟩ := pushed_sent h0 hinv
    obtain ⟨new1, hs1, hn1⟩ :=
      pushed_list_sent ids s0 s1 h1 (pushed_deliveries h0 hinv).2
    refine ⟨new0 ++ new1, by rw [hs1, hs0]; simp, ?_⟩
    intro m hm
    rcases List.mem_append.mp hm with hm | hm
    · exact hn0 m hm
    · exact hn1 m hm

theorem pushed_headers {msg : M} {id : vertex_id_t} {s s1 : multicast_msg_sender M}
    (h : pushed msg id s s1) : ∃ k, s1.headers = s.headers ++ List.replicate k msg := by
  obtain h | h := h
  · obtain ⟨m0, hc, hc1, hs⟩ := h
    exact ⟨0, by simp [multicast_msg_sender.headers, multicast_msg_sender.all_msgs, hc, hc1, hs]⟩
  · obtain ⟨hc1, hs⟩ := h
    exact ⟨1, by simp [multicast_msg_sender.headers, multicast_msg_sender.all_msgs, hc1, hs]⟩

theorem pushed_list_headers {msg : M} :
    ∀ (ids : List vertex_id_t) (s s1 : multicast_msg_sender M),
      pushed_list msg ids s s1 → ∃ k, s1.headers = s.headers ++ List.replicate k msg
  | [], s, s1, h => by simp [pushed_list] at h; exact ⟨0, by simp [h]⟩
  | id :: ids, s, s1, h => by
    obtain ⟨s0, h0, h1⟩ := h
    obtain ⟨k0, hk0⟩ := pushed_headers h0
    obtain ⟨k1, hk1⟩ := pushed_list_headers ids s0 s1 h1
    exact ⟨k0 + k1, by rw [hk1, hk0, List.append_assoc, List.append_replicate_replicate]⟩

theorem pushed_has_msg {msg : M} {id : vertex_id_t} {s s1 : multicast_msg_sender M}
    (h : pushed msg id s s1) : s1.has_msg = true := by
  obtain h | h := h
  · obtain ⟨m0, _, hc1, _⟩ := h
    simp [multicast_msg_sender.has_msg, hc1]
  · simp [multicast_msg_sender.has_msg, h.1]

theorem pushed_list_has_msg {msg : M} :
    ∀ (ids : List vertex_id_t) (s s1 : multicast_msg_sender M),
      pushed_list msg ids s s1 → ids ≠ [] → s1.has_msg = true
  | [], _, _, _, hne => absurd rfl hne
  | [id], s, s1, h, _ => by
    obtain ⟨s0, h0, h1⟩ := h
    simp [pushed_list] at h1
    rw [h1]
    exact pushed_has_msg h0
  | _ :: id :: ids, _, s1, h, _ => by
    obtain ⟨s0, _, h1⟩ := h
    exact pushed_list_has_msg (id :: ids) s0 s1 h1 (by simp)

theorem end_multicast_closed (s : multicast_msg_sender M) (h : s.has_msg = false) :
    s.end_multicast = s := by
  cases s with
  | mk curr sent =>
    cases curr with
    | none => simp [multicast_msg_sender.end_multicast]
    | some m => simp [multicast_msg_sender.has_msg] at h

theorem end_multicast_idem (s : multicast_msg_sender M) :
    s.end_multicast.end_multicast = s.end_multicast :=
  end_multicast_closed _ (by simp [multicast_msg_sender.end_multicast,
    multicast_msg_sender.has_msg])

theorem end_multicasts_spec (c : Nat) :
    ∀ (is : List Nat) (senders : Nat → multicast_msg_sender M) (i : Nat),
      end_multicasts (spec_sender M c) senders is i
        = if i ∈ is then (senders i).end_multicast else senders i
  | [], senders, i => by simp [end_multicasts]
  | j :: is, senders, i => by
    have hstep : (if (spec_sender M c).has_msg (senders j)
        then set_sender senders j ((spec_sender M c).end_multicast (senders j)) else senders)
        = set_sender senders j (senders j).end_multicast := by
      by_cases hm : (senders j).has_msg = true
      · simp [spec_sender, hm]
      · have hm2 : (senders j).has_msg = false := by simpa using hm
        funext k
        by_cases hk : k = j
        · subst hk
          simp [spec_sender, hm2, set_sender, end_multicast_closed _ hm2]
        · simp [spec_sender, hm2, set_sender, hk]
    simp only [end_multicasts, hstep]
    rw [end_multicasts_spec c is _ i]
    by_cases hij : i = j
    · subst hij
      simp [set_sender_same, end_multicast_idem]
    · simp [set_sender_other _ _ _ _ hij, hij]

theorem end_multicast_deliveries (s : multicast_msg_sender M) :
    s.end_multicast.deliveries = s.deliveries := by
  simp [multicast_msg_sender.end_multicast, multicast_msg_sender.deliveries,
    multicast_msg_sender.all_msgs]

/-- The whole of `multicast_msg` on the modelled senders. -/
theorem multicast_msg_spec (c : Nat) (hcap : 0 < c) (map : vertex_id_t → Nat)
    (num_threads fuel : Nat) (msg : M) (ids : List vertex_id_t)
    (senders : Nat → multicast_msg_sender M) :
    ∃ senders1 senders2,
      multicast_msg_dests (spec_sender M c) map (fuel + 1) msg senders ids = .ok senders1 ∧
      multicast_msg (spec_sender M c) map num_threads (fuel + 1) senders ids msg
        = .ok senders2 ∧
      (∀ w, pushed_list msg (ids.filter (fun id => map id = w)) (senders w) (senders1 w)) ∧
      (∀ w, senders2 w = if w < num_threads then (senders1 w).end_multicast else senders1 w) := by
  obtain ⟨senders1, h1, hp⟩ := pushed_list_loop msg
    (multicast_msg_step (spec_sender M c) map (fuel + 1) msg)
    (multicast_msg_dests (spec_sender M c) map (fuel + 1) msg) map
    (fun _ => rfl) (fun _ _ _ => rfl)
    (fun senders id => multicast_step_spec c hcap map fuel msg senders id) ids senders
  refine ⟨senders1, end_multicasts (spec_sender M c) senders1 (List.range num_threads),
    h1, ?_, hp, ?_⟩
  · simp only [multicast_msg, h1, Outcome.bind]
  · intro w
    rw [end_multicasts_spec]
    simp [List.mem_range]

theorem pushed_list_nil_filter (msg : M) (map : vertex_id_t → Nat) (ids : List vertex_id_t)
    (w : Nat) (hw : ∀ id ∈ ids, map id ≠ w) (s s1 : multicast_msg_sender M)
    (h : pushed_list msg (ids.filter (fun id => map id = w)) s s1) : s1 = s := by
  have hnil : ids.filter (fun id => map id = w) = [] := by
    rw [List.filter_eq_nil_iff]
    intro id hid
    simpa using hw id hid
  rw [hnil] at h
  simpa [pushed_list] using h

/-- Between two calls of `multicast_msg` no multicast sender has an open multicast. -/
theorem multicast_reachable_closed (c : Nat) (hcap : 0 < c) (map : vertex_id_t → Nat)
    (num_threads : Nat) (hmap : ∀ id, map id < num_threads)
    (senders : Nat → multicast_msg_sender M)
    (h : multicast_reachable c map num_threads senders) : ∀ i, (senders i).curr = none := by
  induction h with
  | start => intro i; rfl
  | call fuel senders senders1 ids msg _ hcall ih =>
    intro i
    cases fuel with
    | zero =>
      cases ids with
      | nil =>
        simp only [multicast_msg, multicast_msg_dests, Outcome.bind, Outcome.ok.injEq] at hcall
        rw [← hcall, end_multicasts_spec]
        by_cases hi : i ∈ List.range num_threads
        · simp [hi, multicast_msg_sender.end_multicast]
        · simp [hi, ih i]
      | cons id ids =>
        exfalso
        simp [multicast_msg, multicast_msg_dests, multicast_msg_step, first_attempt,
          spec_sender, multicast_msg_sender.has_msg, ih (map id), multicast_retry,
          Outcome.bind] at hcall
    | succ fuel =>
      obtain ⟨sendersA, sendersB, _, h2, hp, hend⟩ :=
        multicast_msg_spec c hcap map num_threads fuel msg ids senders
      rw [h2] at hcall
      cases hcall
      rw [hend i]
      by_cases hi : i < num_threads
      · simp [hi, multicast_msg_sender.end_multicast]
      · have hne : ∀ id ∈ ids, map id ≠ i := fun id _ he => hi (he ▸ hmap id)
        simp only [hi, if_false]
        rw [pushed_list_nil_filter msg map ids i hne _ _ (hp i)]
        exact ih i

/-- Under a sender that takes a destination into every freshly initialised multicast, each
step of the first loop of `multicast_msg` passes its assertion. -/
theorem multicast_msg_step_ok (ops : multicast_sender_ops S M) (msg : M)
    (hfresh : ∀ sender id, (ops.add_dest (ops.init sender msg) id).1 = true)
    (map : vertex_id_t → Nat) (fuel : Nat) (senders : Nat → S) (id : vertex_id_t) :
    ∃ senders1, multicast_msg_step ops map (fuel + 1) msg senders id = .ok senders1 := by
  unfold multicast_msg_step
  cases h : (first_attempt ops (senders (map id)) id).1 with
  | true =>
    exact ⟨set_sender senders (map id) (first_attempt ops (senders (map id)) id).2,
      by simp [h]⟩
  | false =>
    exact ⟨set_sender senders (map id)
      (ops.add_dest (ops.init (first_attempt ops (senders (map id)) id).2 msg) id).2,
      by simp [h, multicast_retry_once ops msg id fuel _ 0 (hfresh _ _)]⟩

theorem multicast_msg_dests_ok (ops : multicast_sender_ops S M) (msg : M)
    (hfresh : ∀ sender id, (ops.add_dest (ops.init sender msg) id).1 = true)
    (map : vertex_id_t → Nat) (fuel : Nat) :
    ∀ (ids : List vertex_id_t) (senders : Nat → S),
      ∃ senders1, multicast_msg_dests ops map (fuel + 1) msg senders ids = .ok senders1
  | [], senders => ⟨senders, rfl⟩
  | id :: ids, senders => by
    obtain ⟨senders0, h0⟩ := multicast_msg_step_ok ops msg hfresh map fuel senders id
    obtain ⟨senders1, h1⟩ := multicast_msg_dests_ok ops msg hfresh map fuel ids senders0
    exact ⟨senders1, by simp [multicast_msg_dests, h0, Outcome.bind, h1]⟩

/-- A buffer that cannot hold one destination keeps the loop of `multicast_msg` running:
no step budget is enough. -/
theorem multicast_retry_zero_capacity (msg : M) (id : vertex_id_t) :
    ∀ (fuel : Nat) (sender : multicast_msg_sender M) (retries : Nat),
      multicast_retry (spec_sender M 0) msg id fuel sender retries = none
  | 0, _, _ => rfl
  | fuel + 1, sender, retries => by
    simp only [multicast_retry, spec_init_add_zero sender msg id]
    exact multicast_retry_zero_capacity msg id fuel _ _

end sender_lemmas

/-! ## multicast_msg -/

/-- C1: from the senders as the engine leaves them between calls, and with a multicast buffer
that holds at least one destination, `multicast_msg(ids, num, msg)` returns, and what it adds
to the multicast sender of every worker `w` is exactly the `ids[i]` with
`partitioner.map(ids[i]) = w`, once per occurrence and in list order, each held by a multicast
that was initialised with the payload `msg` of this call. -/
theorem C1_multicast_msg_destinations {M : Type} (capacity : Nat) (hcap : 0 < capacity)
    (map : vertex_id_t → Nat) (num_threads : Nat) (hmap : ∀ id, map id < num_threads)
    (senders : Nat → multicast_msg_sender M)
    (hreach : multicast_reachable capacity map num_threads senders)
    (fuel : Nat) (hfuel : 0 < fuel) (ids : List vertex_id_t) (msg : M) :
    ∃ senders1,
      multicast_msg (spec_sender M capacity) map num_threads fuel senders ids msg
        = .ok senders1 ∧
      ∀ w, (senders1 w).deliveries
        = (senders w).deliveries
          ++ (ids.filter (fun id => map id = w)).map (fun id => (msg, id)) := by
  obtain ⟨f, rfl⟩ : ∃ f, fuel = f + 1 := ⟨fuel - 1, by omega⟩
  obtain ⟨sendersA, sendersB, _, h2, hp, hend⟩ :=
    multicast_msg_spec capacity hcap map num_threads f msg ids senders
  refine ⟨sendersB, h2, ?_⟩
  intro w
  have hclosed := multicast_reachable_closed capacity hcap map num_threads hmap senders hreach w
  have hinv : curr_header_is msg (senders w) := by
    intro m hm
    rw [hclosed] at hm
    cases hm
  have hd := (pushed_list_deliveries _ _ _ (hp w) hinv).1
  rw [hend w]
  by_cases hw : w < num_threads
  · simp only [hw, if_true, end_multicast_deliveries, hd]
  · simp only [hw, if_false, hd]

/-- C1, at two workers, a buffer of two destinations and the destinations 0, 2, 4 and 1. -/
theorem C1_multicast_msg_destinations_witness :
    ∃ senders1,
      multicast_msg (spec_sender Nat 2) (fun id => id % 2) 2 1
        (fun _ => multicast_msg_sender.fresh) [0, 2, 4, 1] 7 = .ok senders1 ∧
      ∀ w, (senders1 w).deliveries
        = (multicast_msg_sender.fresh : multicast_msg_sender Nat).deliveries
          ++ ([0, 2, 4, 1].filter (fun id => id % 2 = w)).map (fun id => (7, id)) :=
  C1_multicast_msg_destinations 2 (by decide) (fun id => id % 2) 2
    (fun id => Nat.mod_lt id (by decide)) _ multicast_reachable.start 1 (by decide)
    [0, 2, 4, 1] 7

theorem multicast_retry_rounds {S M : Type} (ops : multicast_sender_ops S M) (msg : M) (id : vertex_id_t) :
    ∀ (k fuel : Nat) (sender : S) (retries : Nat), k < fuel →
      (∀ j, j < k → retry_ok ops msg id (Nat.iterate (retry_round ops msg id) j sender)
        = false) →
      retry_ok ops msg id (Nat.iterate (retry_round ops msg id) k sender) = true →
      multicast_retry ops msg id fuel sender retries
        = some (Nat.iterate (retry_round ops msg id) (k + 1) sender, retries + (k + 1))
  | 0, fuel, sender, retries, hk, _, hok => by
    obtain ⟨f, rfl⟩ : ∃ f, fuel = f + 1 := ⟨fuel - 1, by omega⟩
    have h : (ops.add_dest (ops.init sender msg) id).1 = true := hok
    simp [multicast_retry, h, retry_round]
  | k + 1, fuel, sender, retries, hk, hfail, hok => by
    obtain ⟨f, rfl⟩ : ∃ f, fuel = f + 1 := ⟨fuel - 1, by omega⟩
    have h0 : (ops.add_dest (ops.init sender msg) id).1 = false := hfail 0 (by omega)
    have ih := multicast_retry_rounds ops msg id k f (retry_round ops msg id sender)
      (retries + 1) (by omega)
      (fun j hj => by
        have := hfail (j + 1) (by omega)
        rwa [Function.iterate_succ_apply] at this)
      (by rwa [Function.iterate_succ_apply] at hok)
    simp only [multicast_retry, h0]
    rw [Function.iterate_succ_apply]
    simp only [retry_round] at ih ⊢
    rw [ih]
    simp [Nat.add_assoc, Nat.add_comm 1]

theorem multicast_retry_never {S M : Type} (ops : multicast_sender_ops S M) (msg : M) (id : vertex_id_t) :
    ∀ (fuel : Nat) (sender : S) (retries : Nat),
      (∀ j, j < fuel → retry_ok ops msg id (Nat.iterate (retry_round ops msg id) j sender)
        = false) →
      multicast_retry ops msg id fuel sender retries = none
  | 0, _, _, _ => rfl
  | fuel + 1, sender, retries, hfail => by
    have h0 : (ops.add_dest (ops.init sender msg) id).1 = false := hfail 0 (by omega)
    have ih := multicast_retry_never ops msg id fuel (retry_round ops msg id sender)
      (retries + 1)
      (fun j hj => by
        have := hfail (j + 1) (by omega)
        rwa [Function.iterate_succ_apply] at this)
    simp only [multicast_retry, h0]
    simp only [retry_round] at ih
    simpa using ih

theorem multicast_msg_step_once {S M : Type} (ops : multicast_sender_ops S M) (msg : M)
    (hfresh : ∀ sender id, retry_ok ops msg id sender = true)
    (map : vertex_id_t → Nat) (fuel : Nat) (senders : Nat → S) (id : vertex_id_t) :
    multicast_msg_step ops map (fuel + 1) msg senders id
      = .ok (multicast_once ops map msg senders id) := by
  unfold multicast_msg_step multicast_once
  cases h : (first_attempt ops (senders (map id)) id).1 with
  | true => simp [h]
  | false =>
    have hf : (ops.add_dest (ops.init (first_attempt ops (senders (map id)) id).2 msg) id).1
        = true := hfresh _ _
    simp [h, multicast_retry_once ops msg id fuel _ 0 hf, retry_round]

theorem multicast_msg_dests_once {S M : Type} (ops : multicast_sender_ops S M) (msg : M)
    (hfresh : ∀ sender id, retry_ok ops msg id sender = true)
    (map : vertex_id_t → Nat) (fuel : Nat) :
    ∀ (ids : List vertex_id_t) (senders : Nat → S),
      multicast_msg_dests ops map (fuel + 1) msg senders ids
        = .ok (ids.foldl (multicast_once ops map msg) senders)
  | [], _ => rfl
  | id :: ids, senders => by
    simp only [multicast_msg_dests, multicast_msg_step_once ops msg hfresh map fuel senders id,
      Outcome.bind, List.foldl_cons]
    exact multicast_msg_dests_once ops msg hfresh map fuel ids _

/-- C2, as stated, fails: with a sender that takes a destination only from its second
`init` on, the engine inits and retries `add_dest` twice, not exactly once, and the step
returns normally with `retries = 2`; with a sender that takes it from the third `init` on
the loop ends with `retries = 3` and the assertion fails. -/
theorem C2_multicast_msg_retry_counterexample :
    (first_attempt (ops_after_inits Nat 2) 0 5).1 = false ∧
    multicast_retry (ops_after_inits Nat 2) 7 5 3 0 0 = some (2, 2) ∧
    multicast_retry (ops_after_inits Nat 2) 7 5 3 0 0
      ≠ some (((ops_after_inits Nat 2).add_dest ((ops_after_inits Nat 2).init 0 7) 5).2, 1) ∧
    multicast_msg_step (ops_after_inits Nat 2) (fun id => id % 2) 3 7 (fun _ => 0) 5
      = .ok (set_sender (fun _ => 0) 1 2) ∧
    multicast_retry (ops_after_inits Nat 3) 7 5 3 0 0 = some (3, 3) ∧
    multicast_msg_step (ops_after_inits Nat 3) (fun id => id % 2) 3 7 (fun _ => 0) 5
      = .assert_failed := by
  refine ⟨by decide, by decide, by decide, ?_, by decide, ?_⟩
  · simp [multicast_msg_step, first_attempt, ops_after_inits, multicast_retry]
  · simp [multicast_msg_step, first_attempt, ops_after_inits, multicast_retry]

/-- C2, amended: when the first attempt on a destination fails (the sender holds no message,
or `add_dest` returns false), the engine repeats `init(msg)` followed by `add_dest` until
`add_dest` returns true. If that happens in round `k + 1`, the loop ends there with
`retries = k + 1` and the sender as `k + 1` such rounds leave it, and the step returns
normally when `k + 1 <= 2` and fails `assert(retries <= 2)` otherwise; while `add_dest`
keeps returning false the loop does not end. With a sender whose freshly initialised
multicast takes a destination the loop takes exactly one round, and the whole call returns
the senders that one round per failed first attempt and the closing loop leave. -/
theorem C2_multicast_msg_retry {S M : Type} (ops : multicast_sender_ops S M) (msg : M)
    (map : vertex_id_t → Nat) (num_threads : Nat) (id : vertex_id_t) (sender : S)
    (k fuel : Nat) (hfuel : k < fuel)
    (hfail : ∀ j, j < k →
      retry_ok ops msg id (Nat.iterate (retry_round ops msg id) j sender) = false)
    (hok : retry_ok ops msg id (Nat.iterate (retry_round ops msg id) k sender) = true) :
    multicast_retry ops msg id fuel sender 0
      = some (Nat.iterate (retry_round ops msg id) (k + 1) sender, k + 1) ∧
    (∀ senders : Nat → S, first_attempt ops (senders (map id)) id = (false, sender) →
      multicast_msg_step ops map fuel msg senders id
        = if k + 1 ≤ 2
          then .ok (set_sender senders (map id)
            (Nat.iterate (retry_round ops msg id) (k + 1) sender))
          else .assert_failed) ∧
    (∀ (budget : Nat) (sender1 : S),
      (∀ j, j < budget →
        retry_ok ops msg id (Nat.iterate (retry_round ops msg id) j sender1) = false) →
      multicast_retry ops msg id budget sender1 0 = none) ∧
    ((∀ sender1 id1, retry_ok ops msg id1 sender1 = true) →
      k = 0 ∧
      ∀ (senders : Nat → S) (ids : List vertex_id_t),
        multicast_msg ops map num_threads fuel senders ids msg
          = .ok (end_multicasts ops (ids.foldl (multicast_once ops map msg) senders)
              (List.range num_threads))) := by
  have hretry := multicast_retry_rounds ops msg id k fuel sender 0 hfuel hfail hok
  rw [Nat.zero_add] at hretry
  refine ⟨hretry, ?_, ?_, ?_⟩
  · intro senders hfirst
    simp only [multicast_msg_step, hfirst, hretry]
    simp
  · intro budget sender1 hnever
    exact multicast_retry_never ops msg id budget sender1 0 hnever
  · intro hfresh
    have hk0 : k = 0 := by
      by_contra hne
      have h1 := hfail 0 (Nat.pos_of_ne_zero hne)
      rw [Function.iterate_zero_apply, hfresh] at h1
      cases h1
    refine ⟨hk0, ?_⟩
    intro senders ids
    obtain ⟨f, rfl⟩ : ∃ f, fuel = f + 1 := ⟨fuel - 1, by omega⟩
    simp only [multicast_msg, multicast_msg_dests_once ops msg hfresh map f ids senders,
      Outcome.bind]

/-- C2 amended, at the modelled sender with a buffer of one destination, where the first
round succeeds. -/
theorem C2_multicast_msg_retry_witness :
    multicast_retry (spec_sender Nat 1) 7 5 1 multicast_msg_sender.fresh 0
      = some (Nat.iterate (retry_round (spec_sender Nat 1) 7 5) (0 + 1)
          multicast_msg_sender.fresh, 0 + 1) ∧
    (∀ senders : Nat → multicast_msg_sender Nat,
      first_attempt (spec_sender Nat 1) (senders (5 % 2)) 5
        = (false, multicast_msg_sender.fresh) →
      multicast_msg_step (spec_sender Nat 1) (fun id => id % 2) 1 7 senders 5
        = if 0 + 1 ≤ 2
          then .ok (set_sender senders (5 % 2)
            (Nat.iterate (retry_round (spec_sender Nat 1) 7 5) (0 + 1)
              multicast_msg_sender.fresh))
          else .assert_failed) ∧
    (∀ (budget : Nat) (sender1 : multicast_msg_sender Nat),
      (∀ j, j < budget →
        retry_ok (spec_sender Nat 1) 7 5
          (Nat.iterate (retry_round (spec_sender Nat 1) 7 5) j sender1) = false) →
      multicast_retry (spec_sender Nat 1) 7 5 budget sender1 0 = none) ∧
    ((∀ sender1 id1, retry_ok (spec_sender Nat 1) 7 id1 sender1 = true) →
      0 = 0 ∧
      ∀ (senders : Nat → multicast_msg_sender Nat) (ids : List vertex_id_t),
        multicast_msg (spec_sender Nat 1) (fun id => id % 2) 2 1 senders ids 7
          = .ok (end_multicasts (spec_sender Nat 1)
              (ids.foldl (multicast_once (spec_sender Nat 1) (fun id => id % 2) 7) senders)
              (List.range 2))) :=
  C2_multicast_msg_retry (spec_sender Nat 1) 7 (fun id => id % 2) 2 5
    multicast_msg_sender.fresh 0 1 (by decide) (fun j hj => absurd hj (Nat.not_lt_zero j))
    (spec_init_add 1 multicast_msg_sender.fresh 7 5 (by decide)).1

/-- C9: with a multicast buffer that holds at least one destination, `multicast_msg` returns;
every sender that received a destination held an open multicast after the first loop and is
left as `end_multicast` leaves it, and `has_msg` is false for every worker index below
`get_num_threads()`. Consequently, between calls no sender has an open multicast, a call
leaves the senders so again, and it only appends multicasts with the payload of this call
to what a sender had sent: no multicast of an earlier call is touched. -/
theorem C9_multicast_msg_ends_multicasts {M : Type} (capacity : Nat) (hcap : 0 < capacity)
    (map : vertex_id_t → Nat) (num_threads : Nat) (hmap : ∀ id, map id < num_threads)
    (fuel : Nat) (hfuel : 0 < fuel) (ids : List vertex_id_t) (msg : M) :
    (∀ senders : Nat → multicast_msg_sender M, ∃ sendersA senders1,
      multicast_msg_dests (spec_sender M capacity) map fuel msg senders ids = .ok sendersA ∧
      multicast_msg (spec_sender M capacity) map num_threads fuel senders ids msg
        = .ok senders1 ∧
      (∀ i, (∃ id ∈ ids, map id = i) →
        (sendersA i).has_msg = true ∧ senders1 i = (sendersA i).end_multicast) ∧
      (∀ i, i < num_threads → (senders1 i).has_msg = false)) ∧
    (∀ senders : Nat → multicast_msg_sender M,
      multicast_reachable capacity map num_threads senders →
      (∀ i, (senders i).has_msg = false) ∧
      ∃ senders1,
        multicast_msg (spec_sender M capacity) map num_threads fuel senders ids msg
          = .ok senders1 ∧
        (∀ i, (senders1 i).has_msg = false) ∧
        ∀ i, ∃ new, (senders1 i).sent = (senders i).sent ++ new ∧
          ∀ m ∈ new, m.header = msg) := by
  obtain ⟨f, rfl⟩ : ∃ f, fuel = f + 1 := ⟨fuel - 1, by omega⟩
  constructor
  · intro senders
    obtain ⟨sendersA, sendersB, h1, h2, hp, hend⟩ :=
      multicast_msg_spec capacity hcap map num_threads f msg ids senders
    refine ⟨sendersA, sendersB, h1, h2, ?_, ?_⟩
    · rintro i ⟨id, hid, rfl⟩
      refine ⟨pushed_list_has_msg _ _ _ (hp (map id)) ?_, ?_⟩
      · intro hnil
        have : id ∈ ids.filter (fun id1 => map id1 = map id) := by
          simp [List.mem_filter, hid]
        rw [hnil] at this
        cases this
      · rw [hend, if_pos (hmap id)]
    · intro i hi
      rw [hend, if_pos hi]
      simp [multicast_msg_sender.end_multicast, multicast_msg_sender.has_msg]
  · intro senders hreach
    have hclosed := multicast_reachable_closed capacity hcap map num_threads hmap senders hreach
    obtain ⟨sendersA, sendersB, _, h2, hp, hend⟩ :=
      multicast_msg_spec capacity hcap map num_threads f msg ids senders
    have hclosedB := multicast_reachable_closed capacity hcap map num_threads hmap sendersB
      (multicast_reachable.call (f + 1) senders sendersB ids msg hreach h2)
    refine ⟨fun i => by simp [multicast_msg_sender.has_msg, hclosed i], sendersB, h2,
      fun i => by simp [multicast_msg_sender.has_msg, hclosedB i], ?_⟩
    intro i
    have hinv : curr_header_is msg (senders i) := by
      intro m hm
      rw [hclosed i] at hm
      cases hm
    obtain ⟨new0, hs0, hn0⟩ := pushed_list_sent _ _ _ (hp i) hinv
    have hinvA := (pushed_list_deliveries _ _ _ (hp i) hinv).2
    rw [hend i]
    by_cases hi : i < num_threads
    · refine ⟨new0 ++ (sendersA i).curr.toList, ?_, ?_⟩
      · simp [hi, multicast_msg_sender.end_multicast, hs0]
      · intro m hm
        rcases List.mem_append.mp hm with hm | hm
        · exact hn0 m hm
        · exact hinvA m (by simpa [Option.mem_toList] using hm)
    · exact ⟨new0, by simp [hi, hs0], hn0⟩

/-- C9, at two workers, a buffer of one destination and the destinations 0, 2 and 1. -/
theorem C9_multicast_msg_ends_multicasts_witness :
    (∀ senders : Nat → multicast_msg_sender Nat, ∃ sendersA senders1,
      multicast_msg_dests (spec_sender Nat 1) (fun id => id % 2) 1 7 senders [0, 2, 1]
        = .ok sendersA ∧
      multicast_msg (spec_sender Nat 1) (fun id => id % 2) 2 1 senders [0, 2, 1] 7
        = .ok senders1 ∧
      (∀ i, (∃ id ∈ [0, 2, 1], id % 2 = i) →
        (sendersA i).has_msg = true ∧ senders1 i = (sendersA i).end_multicast) ∧
      (∀ i, i < 2 → (senders1 i).has_msg = false)) ∧
    (∀ senders : Nat → multicast_msg_sender Nat,
      multicast_reachable 1 (fun id => id % 2) 2 senders →
      (∀ i, (senders i).has_msg = false) ∧
      ∃ senders1,
        multicast_msg (spec_sender Nat 1) (fun id => id % 2) 2 1 senders [0, 2, 1] 7
          = .ok senders1 ∧
        (∀ i, (senders1 i).has_msg = false) ∧
        ∀ i, ∃ new, (senders1 i).sent = (senders i).sent ++ new ∧
          ∀ m ∈ new, m.header = 7) :=
  C9_multicast_msg_ends_multicasts 1 (by decide) (fun id => id % 2) 2
    (fun id => Nat.mod_lt id (by decide)) 1 (by decide) [0, 2, 1] 7

/-! ## activate_vertices -/

theorem Outcome.bind_ok {α : Type} (o : Outcome α) : o.bind Outcome.ok = o := by
  cases o <;> rfl

/-- The whole of `activate_vertices` on the modelled senders. -/
theorem activate_vertices_spec (c : Nat) (hcap : 0 < c) (map : vertex_id_t → Nat)
    (sizeof_vertex_message : Nat) (ids : List vertex_id_t)
    (senders : Nat → multicast_msg_sender (vertex_message Unit)) :
    ∃ senders1,
      activate_vertices (spec_sender _ c) map sizeof_vertex_message senders ids
        = .ok senders1 ∧
      ∀ w, pushed_list (vertex_message.ctor sizeof_vertex_message true)
        (ids.filter (fun id => map id = w)) (senders w) (senders1 w) :=
  pushed_list_loop (vertex_message.ctor sizeof_vertex_message true)
    (activate_vertices_step (spec_sender _ c) map sizeof_vertex_message)
    (activate_vertices (spec_sender _ c) map sizeof_vertex_message) map
    (fun _ => rfl) (fun _ _ _ => rfl)
    (fun senders id => activate_step_spec c hcap map sizeof_vertex_message senders id)
    ids senders

/-- C3: on any sender, when the first attempt of `activate_vertices` fails (no message, or
`add_dest` returns false), the step is one `init` with the payload-free activation message
and one retried `add_dest`, and the assertion fails when the retry does. On the modelled
sender with a buffer of at least one destination the call returns, it adds to the
activation sender of every worker `w` exactly the `ids[i]` with `partitioner.map(ids[i]) = w`,
and every message it initialises has the size `sizeof(vertex_message)` and the activation
flag set. -/
theorem C3_activate_vertices {S : Type} (ops : multicast_sender_ops S (vertex_message Unit))
    (capacity : Nat) (hcap : 0 < capacity) (map : vertex_id_t → Nat)
    (sizeof_vertex_message : Nat) (ids : List vertex_id_t) :
    (∀ (sendersS : Nat → S) id, (first_attempt ops (sendersS (map id)) id).1 = false →
      activate_vertices_step ops map sizeof_vertex_message sendersS id
        = if (ops.add_dest (ops.init (first_attempt ops (sendersS (map id)) id).2
              (vertex_message.ctor sizeof_vertex_message true)) id).1
          then .ok (set_sender sendersS (map id)
            (ops.add_dest (ops.init (first_attempt ops (sendersS (map id)) id).2
              (vertex_message.ctor sizeof_vertex_message true)) id).2)
          else .assert_failed) ∧
    (∀ senders : Nat → multicast_msg_sender (vertex_message Unit), ∃ senders1,
      activate_vertices (spec_sender _ capacity) map sizeof_vertex_message senders ids
        = .ok senders1 ∧
      (∀ w, (senders1 w).all_dests
        = (senders w).all_dests ++ ids.filter (fun id => map id = w)) ∧
      (∀ w, ∃ k, (senders1 w).headers = (senders w).headers
        ++ List.replicate k (vertex_message.ctor sizeof_vertex_message true))) ∧
    (vertex_message.ctor sizeof_vertex_message true).size = sizeof_vertex_message ∧
    (vertex_message.ctor sizeof_vertex_message true).activate = true := by
  refine ⟨?_, ?_, rfl, rfl⟩
  · intro sendersS id h
    simp [activate_vertices_step, h]
  · intro senders
    obtain ⟨senders1, h1, hp⟩ :=
      activate_vertices_spec capacity hcap map sizeof_vertex_message ids senders
    exact ⟨senders1, h1, fun w => pushed_list_all_dests _ _ _ (hp w),
      fun w => pushed_list_headers _ _ _ (hp w)⟩

/-- C3, at two workers, a buffer of two destinations and the destinations 0, 2, 4 and 1. -/
theorem C3_activate_vertices_witness :
    (∀ (sendersS : Nat → multicast_msg_sender (vertex_message Unit)) id,
      (first_attempt (spec_sender _ 2) (sendersS (id % 2)) id).1 = false →
      activate_vertices_step (spec_sender _ 2) (fun id => id % 2) 8 sendersS id
        = if ((spec_sender _ 2).add_dest ((spec_sender _ 2).init
              (first_attempt (spec_sender _ 2) (sendersS (id % 2)) id).2
              (vertex_message.ctor 8 true)) id).1
          then .ok (set_sender sendersS (id % 2)
            ((spec_sender _ 2).add_dest ((spec_sender _ 2).init
              (first_attempt (spec_sender _ 2) (sendersS (id % 2)) id).2
              (vertex_message.ctor 8 true)) id).2)
          else .assert_failed) ∧
    (∀ senders : Nat → multicast_msg_sender (vertex_message Unit), ∃ senders1,
      activate_vertices (spec_sender _ 2) (fun id => id % 2) 8 senders [0, 2, 4, 1]
        = .ok senders1 ∧
      (∀ w, (senders1 w).all_dests
        = (senders w).all_dests ++ [0, 2, 4, 1].filter (fun id => id % 2 = w)) ∧
      (∀ w, ∃ k, (senders1 w).headers = (senders w).headers
        ++ List.replicate k (vertex_message.ctor 8 true))) ∧
    (vertex_message.ctor 8 true).size = 8 ∧
    (vertex_message.ctor 8 true).activate = true :=
  C3_activate_vertices (spec_sender _ 2) 2 (by decide) (fun id => id % 2) 8 [0, 2, 4, 1]

/-! ## Activation and the frontier of the next level -/

theorem drain_next (dests : List vertex_id_t) :
    ∀ (w : worker_frontier) (v : vertex_id_t),
      (w.drain dests).next v = (w.next v || decide (v ∈ dests)) := by
  induction dests with
  | nil => intro w v; simp [worker_frontier.drain]
  | cons id dests ih =>
    intro w v
    have h := ih (w.on_activation id) v
    simp only [worker_frontier.drain, List.foldl_cons] at h ⊢
    rw [h]
    by_cases hv : v = id
    · simp [worker_frontier.on_activation, hv]
    · simp [worker_frontier.on_activation, hv]

theorem deliver_current {M : Type} (sender : multicast_msg_sender M) (w : worker_frontier)
    (v : vertex_id_t) :
    (deliver_activations sender w).current v = (w.next v || decide (v ∈ sender.all_dests)) := by
  simp [deliver_activations, worker_frontier.barrier_swap, drain_next]

theorem count_curr_activated (w : worker_frontier) (max_id id : vertex_id_t)
    (hid : id ≤ max_id) (hcur : w.current id = true) :
    (w.get_curr_activated_vertices max_id).count id = 1 := by
  unfold worker_frontier.get_curr_activated_vertices
  apply List.count_eq_one_of_mem
  · exact (List.nodup_range _).filter _
  · simp only [List.mem_filter, List.mem_range, hcur, and_true]
    exact Nat.lt_succ_of_le hid

theorem activate_vertex_times_eq {S : Type} (ops : multicast_sender_ops S (vertex_message Unit))
    (map : vertex_id_t → Nat) (sizeof_vertex_message : Nat) (id : vertex_id_t) :
    ∀ (n : Nat) (senders : Nat → S),
      activate_vertex_times ops map sizeof_vertex_message n senders id
        = activate_vertices ops map sizeof_vertex_message senders (List.replicate n id)
  | 0, _ => rfl
  | n + 1, senders => by
    simp only [activate_vertex_times, activate_vertex, activate_vertices, List.replicate_succ]
    cases h : activate_vertices_step ops map sizeof_vertex_message senders id with
    | ok senders1 =>
      simp only [Outcome.bind]
      exact activate_vertex_times_eq ops map sizeof_vertex_message id n senders1
    | assert_failed => rfl
    | out_of_fuel => rfl

/-- The frontier that a list of activations leaves to the worker `w` at the next level. -/
theorem activate_vertices_current (c : Nat) (hcap : 0 < c) (map : vertex_id_t → Nat)
    (sizeof_vertex_message : Nat) (ids : List vertex_id_t)
    (senders : Nat → multicast_msg_sender (vertex_message Unit)) :
    ∃ senders1,
      activate_vertices (spec_sender _ c) map sizeof_vertex_message senders ids
        = .ok senders1 ∧
      ∀ (w : Nat) (fr : worker_frontier) (v : vertex_id_t),
        (deliver_activations (senders1 w) fr).current v
          = (fr.next v || decide (v ∈ (senders w).all_dests)
              || (decide (v ∈ ids) && decide (map v = w))) := by
  obtain ⟨senders1, h1, hp⟩ :=
    activate_vertices_spec c hcap map sizeof_vertex_message ids senders
  refine ⟨senders1, h1, ?_⟩
  intro w fr v
  rw [deliver_current, pushed_list_all_dests _ _ _ (hp w)]
  simp only [List.mem_append, List.mem_filter, decide_eq_true_eq, Bool.decide_or,
    Bool.decide_and, Bool.or_assoc]

/-- C4: with an activation buffer of at least one destination, `N >= 1` calls of
`activate_vertex(id)` and one call of `activate_vertices` on the id `N` times over both
return and leave to every worker the same `current` at the next level as one call of
`activate_vertex(id)`; in the `current` of the owning worker the id appears exactly once,
and so it does after one call of `activate_vertices` on any list that contains the id. -/
theorem C4_activation_idempotent (capacity : Nat) (hcap : 0 < capacity)
    (map : vertex_id_t → Nat) (sizeof_vertex_message : Nat)
    (senders : Nat → multicast_msg_sender (vertex_message Unit)) (id : vertex_id_t)
    (N : Nat) (hN : 1 ≤ N) (max_id : vertex_id_t) (hid : id ≤ max_id) :
    (∃ s1 sN sL,
      activate_vertex (spec_sender _ capacity) map sizeof_vertex_message senders id
        = .ok s1 ∧
      activate_vertex_times (spec_sender _ capacity) map sizeof_vertex_message N senders id
        = .ok sN ∧
      activate_vertices (spec_sender _ capacity) map sizeof_vertex_message senders
        (List.replicate N id) = .ok sL ∧
      (∀ (w : Nat) (fr : worker_frontier),
        (deliver_activations (sN w) fr).current = (deliver_activations (s1 w) fr).current ∧
        (deliver_activations (sL w) fr).current = (deliver_activations (s1 w) fr).current) ∧
      (∀ fr : worker_frontier,
        ((deliver_activations (sN (map id)) fr).get_curr_activated_vertices max_id).count id
          = 1 ∧
        ((deliver_activations (sL (map id)) fr).get_curr_activated_vertices max_id).count id
          = 1)) ∧
    (∀ ids, id ∈ ids → ∃ s,
      activate_vertices (spec_sender _ capacity) map sizeof_vertex_message senders ids
        = .ok s ∧
      ∀ fr : worker_frontier,
        ((deliver_activations (s (map id)) fr).get_curr_activated_vertices max_id).count id
          = 1) := by
  have hgen : ∀ ids, id ∈ ids → ∃ s,
      activate_vertices (spec_sender _ capacity) map sizeof_vertex_message senders ids
        = .ok s ∧
      ∀ fr : worker_frontier,
        ((deliver_activations (s (map id)) fr).get_curr_activated_vertices max_id).count id
          = 1 := by
    intro ids hmem
    obtain ⟨s, hs, hcur⟩ :=
      activate_vertices_current capacity hcap map sizeof_vertex_message ids senders
    refine ⟨s, hs, fun fr => count_curr_activated _ _ _ hid ?_⟩
    rw [hcur]
    simp [hmem]
  refine ⟨?_, hgen⟩
  obtain ⟨s1, hs1, hcur1⟩ :=
    activate_vertices_current capacity hcap map sizeof_vertex_message [id] senders
  obtain ⟨sL, hsL, hcurL⟩ :=
    activate_vertices_current capacity hcap map sizeof_vertex_message
      (List.replicate N id) senders
  have hmemN : id ∈ List.replicate N id := by
    simp [List.mem_replicate]
    omega
  have hsame : ∀ (w : Nat) (fr : worker_frontier),
      (deliver_activations (sL w) fr).current = (deliver_activations (s1 w) fr).current := by
    intro w fr
    funext v
    rw [hcurL, hcur1]
    by_cases hv : v = id
    · subst hv
      simp [hmemN]
    · have h1 : ¬ v ∈ List.replicate N id := fun h => hv (List.eq_of_mem_replicate h)
      simp [hv, h1]
  obtain ⟨sG, hsG, hcount⟩ := hgen (List.replicate N id) hmemN
  rw [hsL] at hsG
  cases hsG
  refine ⟨s1, sL, sL, hs1, ?_, hsL, fun w fr => ⟨hsame w fr, hsame w fr⟩,
    fun fr => ⟨hcount fr, hcount fr⟩⟩
  rw [activate_vertex_times_eq]
  exact hsL

/-- C4, at three activations of vertex 5 with two workers and ids up to 9. -/
theorem C4_activation_idempotent_witness :
    (∃ s1 sN sL,
      activate_vertex (spec_sender _ 2) (fun id => id % 2) 8
        (fun _ => multicast_msg_sender.fresh) 5 = .ok s1 ∧
      activate_vertex_times (spec_sender _ 2) (fun id => id % 2) 8 3
        (fun _ => multicast_msg_sender.fresh) 5 = .ok sN ∧
      activate_vertices (spec_sender _ 2) (fun id => id % 2) 8
        (fun _ => multicast_msg_sender.fresh) (List.replicate 3 5) = .ok sL ∧
      (∀ (w : Nat) (fr : worker_frontier),
        (deliver_activations (sN w) fr).current = (deliver_activations (s1 w) fr).current ∧
        (deliver_activations (sL w) fr).current = (deliver_activations (s1 w) fr).current) ∧
      (∀ fr : worker_frontier,
        ((deliver_activations (sN (5 % 2)) fr).get_curr_activated_vertices 9).count 5 = 1 ∧
        ((deliver_activations (sL (5 % 2)) fr).get_curr_activated_vertices 9).count 5 = 1)) ∧
    (∀ ids, 5 ∈ ids → ∃ s,
      activate_vertices (spec_sender _ 2) (fun id => id % 2) 8
        (fun _ => multicast_msg_sender.fresh) ids = .ok s ∧
      ∀ fr : worker_frontier,
        ((deliver_activations (s (5 % 2)) fr).get_curr_activated_vertices 9).count 5 = 1) :=
  C4_activation_idempotent 2 (by decide) (fun id => id % 2) 8
    (fun _ => multicast_msg_sender.fresh) 5 3 (by decide) 9 (by decide)

/-! ## send_msg -/

theorem send_cached_accepted {T : Type} (s : simple_msg_sender T) (msg : T) :
    (s.send_cached msg).accepted = s.accepted ++ [msg] := by
  unfold simple_msg_sender.send_cached simple_msg_sender.accepted
  by_cases h : s.capacity ≤ s.buf.length + 1
  · simp [h]
  · simp [h]

/-- C5: `send_msg(dest, msg)` hands exactly one message to the point-to-point sender of worker
`partitioner.map(dest)` and leaves every other sender as it was; the message has the
destination `dest` and the other fields of `msg`, and the caller finds its `msg` changed
to that message, so only in the destination field. -/
theorem C5_send_msg {P : Type} (map : vertex_id_t → Nat)
    (senders : Nat → simple_msg_sender (vertex_message P)) (dest : vertex_id_t)
    (msg : vertex_message P) :
    ((send_msg simple_msg_sender.send_cached vertex_message.set_dest map senders dest msg).1
        (map dest)).accepted
      = (senders (map dest)).accepted
        ++ [{ size := msg.size, activate := msg.activate, dest := some dest,
              payload := msg.payload }] ∧
    (∀ w, w ≠ map dest →
      (send_msg simple_msg_sender.send_cached vertex_message.set_dest map senders dest msg).1 w
        = senders w) ∧
    (send_msg simple_msg_sender.send_cached vertex_message.set_dest map senders dest msg).2
      = { size := msg.size, activate := msg.activate, dest := some dest,
          payload := msg.payload } := by
  refine ⟨?_, ?_, ?_⟩
  · simp [send_msg, set_sender, send_cached_accepted, vertex_message.set_dest]
  · intro w hw
    simp [send_msg, set_sender, hw]
  · simp [send_msg, vertex_message.set_dest]

/-! ## raw_data_array::copy_from -/

/-- C7: `copy_from(arr)` returns true exactly when both arrays hold their entire array and
have equal `num_bytes`; then the first `num_bytes` bytes of the destination are the bytes
of `arr`, before and after the call, and no other byte of the memory changes; when it
returns false the memory is unchanged. -/
theorem C7_copy_from (has_entire_array : raw_data_array → Bool) (mem : memory)
    (self arr : raw_data_array) :
    ((raw_data_array.copy_from has_entire_array mem self arr).1 = true ↔
      (has_entire_array self = true ∧ has_entire_array arr = true ∧
        self.num_bytes = arr.num_bytes)) ∧
    ((raw_data_array.copy_from has_entire_array mem self arr).1 = true →
      (∀ i, i < self.num_bytes →
        (raw_data_array.copy_from has_entire_array mem self arr).2 self.data i
            = mem arr.data i ∧
        (raw_data_array.copy_from has_entire_array mem self arr).2 self.data i
            = (raw_data_array.copy_from has_entire_array mem self arr).2 arr.data i) ∧
      (∀ b i, ¬ (b = self.data ∧ i < self.num_bytes) →
        (raw_data_array.copy_from has_entire_array mem self arr).2 b i = mem b i)) ∧
    ((raw_data_array.copy_from has_entire_array mem self arr).1 = false →
      (raw_data_array.copy_from has_entire_array mem self arr).2 = mem) := by
  have hval : raw_data_array.copy_from has_entire_array mem self arr
      = if has_entire_array self = true ∧ has_entire_array arr = true ∧
          self.num_bytes = arr.num_bytes
        then (true, memcpy mem self.data arr.data self.num_bytes) else (false, mem) := by
    unfold raw_data_array.copy_from
    by_cases h1 : has_entire_array self = true
    · by_cases h2 : has_entire_array arr = true
      · by_cases h3 : self.num_bytes = arr.num_bytes
        · simp [h1, h2, h3]
        · simp [h1, h2, h3]
      · simp [h1, h2]
    · simp [h1]
  rw [hval]
  by_cases hc : has_entire_array self = true ∧ has_entire_array arr = true ∧
      self.num_bytes = arr.num_bytes
  · rw [if_pos hc]
    refine ⟨by simp [hc], fun _ => ⟨?_, ?_⟩, by simp⟩
    · intro i hi
      by_cases hd : arr.data = self.data
      · simp [memcpy, hi, hd]
      · simp [memcpy, hi, hd]
    · intro b i hb
      simp only [memcpy, hb, if_false]
  · rw [if_neg hc]
    exact ⟨by simp [hc], by simp, fun _ => rfl⟩

/-! ## The defaults of compute_vertex -/

theorem vertex_run.steps_done {σ : Type} (prog : compute_vertex σ) :
    ∀ (n : Nat) (r : vertex_run σ), r.state = .DONE → vertex_run.steps prog n r = r
  | 0, _, _ => rfl
  | n + 1, r, h => by
    have hs : vertex_run.step prog r = r := by
      simp [vertex_run.step, h]
    simp only [vertex_run.steps, hs]
    exact vertex_run.steps_done prog n r h

theorem vertex_run.steps_add {σ : Type} (prog : compute_vertex σ) :
    ∀ (m n : Nat) (r : vertex_run σ),
      vertex_run.steps prog (m + n) r = vertex_run.steps prog n (vertex_run.steps prog m r)
  | 0, n, r => by simp [vertex_run.steps]
  | m + 1, n, r => by
    rw [Nat.add_right_comm]
    simp only [vertex_run.steps]
    exact vertex_run.steps_add prog m n _

/-- C8: a vertex program that keeps the defaults of `compute_vertex` has `run(graph)` return
true and `has_required_vertices()` return false in every state; under the state machine of
the level it goes through `IDLE`, `PRE_RUN`, `AWAIT_SELF`, `POST_SELF`, `DONE`, stays in
`DONE`, is never in `AWAIT_NEIGH`, and is handed its own adjacency list exactly once. -/
theorem C8_compute_vertex_defaults {σ : Type} (run_on_vertex run_on_neighbors : σ → σ)
    (user : σ) :
    ((compute_vertex.defaults run_on_vertex run_on_neighbors).run user).1 = true ∧
    (compute_vertex.defaults run_on_vertex run_on_neighbors).has_required_vertices user
      = false ∧
    [0, 1, 2, 3, 4].map (fun n =>
        (vertex_run.steps (compute_vertex.defaults run_on_vertex run_on_neighbors) n
          (vertex_run.start user)).state)
      = [.IDLE, .PRE_RUN, .AWAIT_SELF, .POST_SELF, .DONE] ∧
    (∀ n, (vertex_run.steps (compute_vertex.defaults run_on_vertex run_on_neighbors) n
        (vertex_run.start user)).state ≠ .AWAIT_NEIGH) ∧
    (∀ n, (vertex_run.steps (compute_vertex.defaults run_on_vertex run_on_neighbors) n
        (vertex_run.start user)).self_observed ≤ 1) ∧
    (∀ n, 4 ≤ n →
      (vertex_run.steps (compute_vertex.defaults run_on_vertex run_on_neighbors) n
        (vertex_run.start user)).state = .DONE ∧
      (vertex_run.steps (compute_vertex.defaults run_on_vertex run_on_neighbors) n
        (vertex_run.start user)).self_observed = 1) := by
  have h4 : vertex_run.steps (compute_vertex.defaults run_on_vertex run_on_neighbors) 4
      (vertex_run.start user)
      = { state := .DONE, user := run_on_vertex user, self_observed := 1 } := rfl
  have hlate : ∀ n, 4 ≤ n →
      vertex_run.steps (compute_vertex.defaults run_on_vertex run_on_neighbors) n
        (vertex_run.start user)
      = { state := .DONE, user := run_on_vertex user, self_observed := 1 } := by
    intro n hn
    obtain ⟨k, rfl⟩ : ∃ k, n = 4 + k := ⟨n - 4, by omega⟩
    rw [vertex_run.steps_add, h4]
    exact vertex_run.steps_done _ k _ rfl
  have hcases : ∀ n, n = 0 ∨ n = 1 ∨ n = 2 ∨ n = 3 ∨ 4 ≤ n := by
    intro n
    omega
  refine ⟨rfl, rfl, rfl, ?_, ?_, ?_⟩
  · intro n
    rcases hcases n with h | h | h | h | h
    · subst h; simp [vertex_run.steps, vertex_run.start]
    · subst h; simp [vertex_run.steps, vertex_run.start, vertex_run.step]
    · subst h
      simp [vertex_run.steps, vertex_run.start, vertex_run.step, compute_vertex.defaults]
    · subst h
      simp [vertex_run.steps, vertex_run.start, vertex_run.step, compute_vertex.defaults]
    · rw [hlate n h]
      simp
  · intro n
    rcases hcases n with h | h | h | h | h
    · subst h; simp [vertex_run.steps, vertex_run.start]
    · subst h; simp [vertex_run.steps, vertex_run.start, vertex_run.step]
    · subst h
      simp [vertex_run.steps, vertex_run.start, vertex_run.step, compute_vertex.defaults]
    · subst h
      simp [vertex_run.steps, vertex_run.start, vertex_run.step, compute_vertex.defaults]
    · rw [hlate n h]
  · intro n hn
    rw [hlate n hn]
    exact ⟨rfl, rfl⟩

/-! ## PageRank: scatter -/

theorem pgrank_fill_spec :
    ∀ (ids pre rest : List vertex_id_t), rest.length = ids.length →
      pgrank_fill { buf := pre ++ rest } pre.length ids
        = some ({ buf := pre ++ ids }, pre.length + ids.length)
  | [], pre, rest, h => by
    have hr : rest = [] := List.length_eq_zero.mp (by simpa using h)
    simp [pgrank_fill, hr]
  | id :: ids, pre, rest, h => by
    cases rest with
    | nil => simp at h
    | cons r rest =>
      have hlen : rest.length = ids.length := by simpa using h
      have hset : (pre ++ r :: rest).set pre.length id = (pre ++ [id]) ++ rest := by
        rw [List.set_append_right _ _ (Nat.le_refl _)]
        simp
      have ih := pgrank_fill_spec ids (pre ++ [id]) rest hlen
      simp only [List.length_append, List.length_singleton] at ih
      simp only [pgrank_fill, stack_array.assign, List.length_append, List.length_cons,
        Nat.lt_add_right_iff_pos, Nat.zero_lt_succ, if_true, hset, ih]
      simp [Nat.add_assoc, Nat.add_comm 1]

/-- The scatter loop fills the buffer with the out-neighbours, whatever their number. -/
theorem pgrank_fill_ctor (ids : List vertex_id_t) :
    pgrank_fill (stack_array.ctor ids.length) 0 ids = some ({ buf := ids }, ids.length) := by
  have h := pgrank_fill_spec ids [] (List.replicate ids.length 0) (by simp)
  simpa [stack_array.ctor] using h

/-- C10: in the float arithmetic of the program, whatever it is, `pgrank_vertex::run`
completes for a page vertex of any out-degree. With in-edges it writes
`(1 - DAMPING_FACTOR) + DAMPING_FACTOR * accum` to the rank and `last_change` is the new
rank minus the old one; without in-edges it keeps the vertex and `last_change` is 0. It
calls `graph.activate_vertices` if and only if `fabs(last_change) > TOLERANCE` and the
vertex has at least one out-edge, and then with exactly the out-neighbour sequence and the
count `get_num_edges(OUT_EDGE)`. As `fabs(0) > TOLERANCE` is false, a vertex with no
in-edges keeps its rank and makes no call. -/
theorem C10_pgrank_scatter {F : Type} (fl : float_ops F) (DAMPING_FACTOR tol : F)
    (htol : fl.gt (fl.fabs (fl.of_int 0)) tol = false)
    (graph : vertex_id_t → fp.pgrank_vertex F) (self : fp.pgrank_vertex F)
    (vertex : page_vertex) :
    ∃ r, fp.pgrank_vertex.run fl DAMPING_FACTOR tol graph self vertex = some r ∧
      r.self = (if self.num_in_edges > 0
        then fp.pgrank_vertex.mk
          (fl.add (fl.sub (fl.of_int 1) DAMPING_FACTOR)
            (fl.mul DAMPING_FACTOR (fp.pgrank_gather fl graph (vertex.neighs .IN_EDGE))))
          self.num_in_edges self.num_out_edges
        else self) ∧
      r.last_change = (if self.num_in_edges > 0
        then fl.sub r.self.curr_itr_pr self.curr_itr_pr else fl.of_int 0) ∧
      (r.activated.isSome = true ↔
        (fl.gt (fl.fabs r.last_change) tol = true ∧ 0 < vertex.get_num_edges .OUT_EDGE)) ∧
      (∀ call, r.activated = some call →
        call.1 = vertex.neighs .OUT_EDGE ∧ call.2 = vertex.get_num_edges .OUT_EDGE) ∧
      (self.num_in_edges = 0 → r.self = self ∧ r.activated = none) := by
  have hfill := pgrank_fill_ctor (vertex.neighs .OUT_EDGE)
  unfold fp.pgrank_vertex.run
  simp only [page_vertex.get_num_edges, hfill]
  by_cases hin : self.num_in_edges > 0
  · simp only [hin, if_true]
    cases hch : fl.gt (fl.fabs (fl.sub (fl.add (fl.sub (fl.of_int 1) DAMPING_FACTOR)
        (fl.mul DAMPING_FACTOR (fp.pgrank_gather fl graph (vertex.neighs .IN_EDGE))))
        self.curr_itr_pr)) tol with
    | true =>
      simp only [if_true]
      by_cases hout : (vertex.neighs .OUT_EDGE).length > 0
      · simp only [hout, if_true]
        refine ⟨_, rfl, rfl, rfl, ?_, ?_, ?_⟩
        · simp [hch, hout]
        · intro call hcall
          cases hcall
          exact ⟨rfl, rfl⟩
        · intro h0
          omega
      · simp only [hout, if_false]
        refine ⟨_, rfl, rfl, rfl, ?_, ?_, ?_⟩
        · simp [hout]
        · intro call hcall
          cases hcall
        · intro h0
          omega
    | false =>
      simp only [Bool.false_eq_true, if_false]
      refine ⟨_, rfl, rfl, rfl, ?_, ?_, ?_⟩
      · simp [hch]
      · intro call hcall
        cases hcall
      · intro h0
        omega
  · simp only [hin, if_false, htol, Bool.false_eq_true]
    refine ⟨_, rfl, rfl, rfl, ?_, ?_, ?_⟩
    · simp [htol]
    · intro call hcall
      cases hcall
    · intro _
      exact ⟨rfl, rfl⟩

/-- C10, at exact rational arithmetic, the damping factor 0.85 and a vertex with two
in-neighbours and two out-neighbours. -/
theorem C10_pgrank_scatter_witness :
    ∃ r, fp.pgrank_vertex.run rat_float (17 / 20) (1 / 100)
        (fun _ => fp.pgrank_vertex.mk (3 / 20) 0 1) (fp.pgrank_vertex.mk (3 / 20) 2 2)
        (page_vertex.mk [1, 2] [3, 4]) = some r ∧
      r.self = (if (fp.pgrank_vertex.mk (3 / 20 : ℚ) 2 2).num_in_edges > 0
        then fp.pgrank_vertex.mk
          (rat_float.add (rat_float.sub (rat_float.of_int 1) (17 / 20))
            (rat_float.mul (17 / 20) (fp.pgrank_gather rat_float
              (fun _ => fp.pgrank_vertex.mk (3 / 20) 0 1)
              ((page_vertex.mk [1, 2] [3, 4]).neighs .IN_EDGE))))
          (fp.pgrank_vertex.mk (3 / 20 : ℚ) 2 2).num_in_edges
          (fp.pgrank_vertex.mk (3 / 20 : ℚ) 2 2).num_out_edges
        else fp.pgrank_vertex.mk (3 / 20) 2 2) ∧
      r.last_change = (if (fp.pgrank_vertex.mk (3 / 20 : ℚ) 2 2).num_in_edges > 0
        then rat_float.sub r.self.curr_itr_pr (fp.pgrank_vertex.mk (3 / 20 : ℚ) 2 2).curr_itr_pr
        else rat_float.of_int 0) ∧
      (r.activated.isSome = true ↔
        (rat_float.gt (rat_float.fabs r.last_change) (1 / 100) = true ∧
          0 < (page_vertex.mk [1, 2] [3, 4]).get_num_edges .OUT_EDGE)) ∧
      (∀ call, r.activated = some call →
        call.1 = (page_vertex.mk [1, 2] [3, 4]).neighs .OUT_EDGE ∧
        call.2 = (page_vertex.mk [1, 2] [3, 4]).get_num_edges .OUT_EDGE) ∧
      ((fp.pgrank_vertex.mk (3 / 20 : ℚ) 2 2).num_in_edges = 0 →
        r.self = fp.pgrank_vertex.mk (3 / 20) 2 2 ∧ r.activated = none) :=
  C10_pgrank_scatter rat_float (17 / 20) (1 / 100)
    (by simp [rat_float])
    (fun _ => fp.pgrank_vertex.mk (3 / 20) 0 1) (fp.pgrank_vertex.mk (3 / 20) 2 2)
    (page_vertex.mk [1, 2] [3, 4])

/-- Over the exact arithmetic of the rationals the run in the float arithmetic is the run
with rational ranks. -/
theorem pgrank_run_rat_float (DAMPING_FACTOR tol : ℚ) (graph : vertex_id_t → pgrank_vertex)
    (self : pgrank_vertex) (vertex : page_vertex) :
    (fp.pgrank_vertex.run rat_float DAMPING_FACTOR tol (fun u => (graph u).to_fp)
        self.to_fp vertex).map (fun r => (r.self, r.last_change, r.activated))
      = (pgrank_vertex.run DAMPING_FACTOR tol graph self vertex).map
          (fun r => (r.self.to_fp, r.last_change, r.activated)) := by
  have hg : fp.pgrank_gather rat_float (fun u => (graph u).to_fp) (vertex.neighs .IN_EDGE)
      = pgrank_gather graph (vertex.neighs .IN_EDGE) := rfl
  have hfill := pgrank_fill_ctor (vertex.neighs .OUT_EDGE)
  unfold fp.pgrank_vertex.run pgrank_vertex.run
  simp only [hg, page_vertex.get_num_edges, hfill]
  by_cases hin : self.num_in_edges > 0
  · have hin2 : self.to_fp.num_in_edges > 0 := hin
    simp only [hin, hin2, if_true]
    by_cases hch : abs (1 - DAMPING_FACTOR
        + DAMPING_FACTOR * pgrank_gather graph (vertex.neighs .IN_EDGE)
        - self.curr_itr_pr) > tol
    · have hch2 : rat_float.gt (rat_float.fabs (rat_float.sub
          (rat_float.add (rat_float.sub (rat_float.of_int 1) DAMPING_FACTOR)
            (rat_float.mul DAMPING_FACTOR (pgrank_gather graph (vertex.neighs .IN_EDGE))))
          self.to_fp.curr_itr_pr)) tol = true := by
        simpa [rat_float, pgrank_vertex.to_fp] using hch
      simp only [hch, hch2, if_true]
      by_cases hout : (vertex.neighs .OUT_EDGE).length > 0
      · simp [hout, rat_float, pgrank_vertex.to_fp]
      · simp [hout, rat_float, pgrank_vertex.to_fp]
    · have hch2 : rat_float.gt (rat_float.fabs (rat_float.sub
          (rat_float.add (rat_float.sub (rat_float.of_int 1) DAMPING_FACTOR)
            (rat_float.mul DAMPING_FACTOR (pgrank_gather graph (vertex.neighs .IN_EDGE))))
          self.to_fp.curr_itr_pr)) tol = false := by
        simpa [rat_float, pgrank_vertex.to_fp] using hch
      simp [hch, hch2, rat_float, pgrank_vertex.to_fp]
  · have hin2 : ¬ self.to_fp.num_in_edges > 0 := hin
    simp only [hin, hin2, if_false]
    by_cases hch : abs (0 : ℚ) > tol
    · have hch2 : rat_float.gt (rat_float.fabs (rat_float.of_int 0)) tol = true := by
        simpa [rat_float] using hch
      simp only [hch, hch2, if_true]
      by_cases hout : (vertex.neighs .OUT_EDGE).length > 0
      · simp [hout, rat_float]
      · simp [hout, rat_float]
    · have h0 : ¬ tol < 0 := by simpa using hch
      simp [h0, rat_float]

/-! ## PageRank: the range of the ranks -/

theorem foldl_add_eq_sum {α : Type} (f : α → ℚ) :
    ∀ (l : List α) (a : ℚ), l.foldl (fun accum x => accum + f x) a = a + (l.map f).sum
  | [], a => by simp
  | x :: l, a => by
    simp only [List.foldl_cons, List.map_cons, List.sum_cons]
    rw [foldl_add_eq_sum f l (a + f x)]
    ring

theorem pgrank_gather_eq_sum (graph : vertex_id_t → pgrank_vertex)
    (in_edges : List vertex_id_t) :
    pgrank_gather graph in_edges
      = (in_edges.map
          (fun id => (graph id).curr_itr_pr / ((graph id).num_out_edges : ℚ))).sum := by
  unfold pgrank_gather
  rw [foldl_add_eq_sum (fun id => (graph id).curr_itr_pr / ((graph id).num_out_edges : ℚ))]
  simp

/-- What `run` leaves in the vertex: the update when the vertex has in-edges, and the
vertex as it was otherwise. -/
theorem pgrank_run_self (DAMPING_FACTOR tol : ℚ) (graph : vertex_id_t → pgrank_vertex)
    (self : pgrank_vertex) (vertex : page_vertex) :
    ∃ r, pgrank_vertex.run DAMPING_FACTOR tol graph self vertex = some r ∧
      r.self = if self.num_in_edges > 0
        then { self with curr_itr_pr :=
          (1 - DAMPING_FACTOR) + DAMPING_FACTOR * pgrank_gather graph vertex.in_edges }
        else self := by
  have hfill := pgrank_fill_ctor (vertex.neighs .OUT_EDGE)
  unfold pgrank_vertex.run
  simp only [page_vertex.get_num_edges, hfill]
  by_cases hin : self.num_in_edges > 0
  · simp only [hin, if_true]
    by_cases hch : abs (1 - DAMPING_FACTOR
        + DAMPING_FACTOR * pgrank_gather graph (vertex.neighs .IN_EDGE)
        - self.curr_itr_pr) > tol
    · simp only [hch, if_true]
      by_cases hout : (vertex.neighs .OUT_EDGE).length > 0
      · simp only [hout, if_true]
        exact ⟨_, rfl, rfl⟩
      · simp only [hout, if_false]
        exact ⟨_, rfl, rfl⟩
    · simp only [hch, if_false]
      exact ⟨_, rfl, rfl⟩
  · simp only [hin, if_false]
    by_cases hch : abs (0 : ℚ) > tol
    · simp only [hch, if_true]
      by_cases hout : (vertex.neighs .OUT_EDGE).length > 0
      · simp only [hout, if_true]
        exact ⟨_, rfl, rfl⟩
      · simp only [hout, if_false]
        exact ⟨_, rfl, rfl⟩
    · simp only [hch, if_false]
      exact ⟨_, rfl, rfl⟩

theorem pgrank_run_vertex_eq (DAMPING_FACTOR tol : ℚ) (page : vertex_id_t → page_vertex)
    (graph : vertex_id_t → pgrank_vertex) (v u : vertex_id_t) :
    pgrank_run_vertex DAMPING_FACTOR tol page graph v u
      = if u = v then
          (if (graph v).num_in_edges > 0
            then { graph v with curr_itr_pr :=
              (1 - DAMPING_FACTOR) + DAMPING_FACTOR * pgrank_gather graph (page v).in_edges }
            else graph v)
        else graph u := by
  obtain ⟨r, hr, hself⟩ := pgrank_run_self DAMPING_FACTOR tol graph (graph v) (page v)
  unfold pgrank_run_vertex
  rw [hr]
  simp only [hself]

theorem damping_factor_accepted_iff (d : ℚ) :
    damping_factor_accepted d = true ↔ 0 ≤ d ∧ d ≤ 1 := by
  simp [damping_factor_accepted]

theorem pgrank_gather_nonneg (graph : vertex_id_t → pgrank_vertex)
    (h : ∀ u, 0 ≤ (graph u).curr_itr_pr) (l : List vertex_id_t) :
    0 ≤ pgrank_gather graph l := by
  rw [pgrank_gather_eq_sum]
  apply List.sum_nonneg
  intro x hx
  obtain ⟨u, _, rfl⟩ := List.mem_map.mp hx
  exact div_nonneg (h u) (Nat.cast_nonneg _)

theorem pgrank_gather_mono (graph graph1 : vertex_id_t → pgrank_vertex)
    (hout : ∀ u, (graph1 u).num_out_edges = (graph u).num_out_edges)
    (hle : ∀ u, (graph u).curr_itr_pr ≤ (graph1 u).curr_itr_pr) (l : List vertex_id_t) :
    pgrank_gather graph l ≤ pgrank_gather graph1 l := by
  rw [pgrank_gather_eq_sum, pgrank_gather_eq_sum]
  apply List.sum_le_sum
  intro u _
  rw [hout u]
  exact div_le_div_of_nonneg_right (hle u) (Nat.cast_nonneg _)

theorem pgrank_gather_zero (graph : vertex_id_t → pgrank_vertex)
    (h : ∀ u, (graph u).curr_itr_pr = 0) (l : List vertex_id_t) :
    pgrank_gather graph l = 0 := by
  rw [pgrank_gather_eq_sum]
  simp [h]

theorem pgrank_inv_start (d : ℚ) (hd0 : 0 ≤ d) (hd1 : d ≤ 1)
    (page : vertex_id_t → page_vertex) : pgrank_inv d page (pgrank_start d page) := by
  have hnn : ∀ u, 0 ≤ (pgrank_start d page u).curr_itr_pr := by
    intro u
    simp only [pgrank_start, pgrank_vertex.ctor]
    linarith
  refine ⟨fun u => ⟨rfl, rfl⟩, fun u => le_refl _, ?_, ?_⟩
  · intro v
    have hg := pgrank_gather_nonneg (pgrank_start d page) hnn (page v).in_edges
    have hm : 0 ≤ d * pgrank_gather (pgrank_start d page) (page v).in_edges :=
      mul_nonneg hd0 hg
    simp only [pgrank_start, pgrank_vertex.ctor] at hm ⊢
    linarith
  · intro h1 u
    simp [pgrank_start, pgrank_vertex.ctor, h1]

theorem pgrank_inv_step (d tol : ℚ) (hd0 : 0 ≤ d) (hd1 : d ≤ 1)
    (page : vertex_id_t → page_vertex) (graph : vertex_id_t → pgrank_vertex)
    (v : vertex_id_t) (h : pgrank_inv d page graph) :
    pgrank_inv d page (pgrank_run_vertex d tol page graph v) := by
  obtain ⟨hdeg, hlow, hup, hone⟩ := h
  have hnn : ∀ u, 0 ≤ (graph u).curr_itr_pr := fun u => le_trans (by linarith) (hlow u)
  by_cases hin : (graph v).num_in_edges > 0
  · have hrank : ∀ u, (pgrank_run_vertex d tol page graph v u).curr_itr_pr
        = if u = v then (1 - d) + d * pgrank_gather graph (page v).in_edges
          else (graph u).curr_itr_pr := by
      intro u
      rw [pgrank_run_vertex_eq]
      by_cases huv : u = v
      · simp [huv, hin]
      · simp [huv]
    have hout : ∀ u, (pgrank_run_vertex d tol page graph v u).num_out_edges
        = (graph u).num_out_edges := by
      intro u
      rw [pgrank_run_vertex_eq]
      by_cases huv : u = v
      · simp [huv, hin]
      · simp [huv]
    have hinn : ∀ u, (pgrank_run_vertex d tol page graph v u).num_in_edges
        = (graph u).num_in_edges := by
      intro u
      rw [pgrank_run_vertex_eq]
      by_cases huv : u = v
      · simp [huv, hin]
      · simp [huv]
    have hle : ∀ u, (graph u).curr_itr_pr
        ≤ (pgrank_run_vertex d tol page graph v u).curr_itr_pr := by
      intro u
      rw [hrank]
      by_cases huv : u = v
      · simp only [huv, if_true]
        exact hup v
      · simp [huv]
    have hmono : ∀ l, pgrank_gather graph l
        ≤ pgrank_gather (pgrank_run_vertex d tol page graph v) l :=
      fun l => pgrank_gather_mono _ _ hout hle l
    refine ⟨?_, ?_, ?_, ?_⟩
    · intro u
      rw [hinn, hout]
      exact hdeg u
    · intro u
      exact le_trans (hlow u) (hle u)
    · intro w
      have hw := mul_le_mul_of_nonneg_left (hmono (page w).in_edges) hd0
      rw [hrank]
      by_cases hwv : w = v
      · simp only [hwv, if_true]
        have hv := mul_le_mul_of_nonneg_left (hmono (page v).in_edges) hd0
        linarith
      · simp only [hwv, if_false]
        have := hup w
        linarith
    · intro h1 u
      rw [hrank]
      by_cases huv : u = v
      · simp only [huv, if_true]
        rw [pgrank_gather_zero graph (hone h1)]
        simp [h1]
      · simp only [huv, if_false]
        exact hone h1 u
  · have hsame : pgrank_run_vertex d tol page graph v = graph := by
      funext u
      rw [pgrank_run_vertex_eq]
      by_cases huv : u = v
      · simp [huv, hin]
      · simp [huv]
    rw [hsame]
    exact ⟨hdeg, hlow, hup, hone⟩

theorem pgrank_inv_schedule (d tol : ℚ) (hd0 : 0 ≤ d) (hd1 : d ≤ 1)
    (page : vertex_id_t → page_vertex) :
    ∀ (schedule : List vertex_id_t) (graph : vertex_id_t → pgrank_vertex),
      pgrank_inv d page graph →
      pgrank_inv d page (pgrank_run_schedule d tol page graph schedule)
  | [], _, h => h
  | v :: schedule, graph, h => by
    simp only [pgrank_run_schedule, List.foldl_cons]
    exact pgrank_inv_schedule d tol hd0 hd1 page schedule _
      (pgrank_inv_step d tol hd0 hd1 page graph v h)

/-- Summed over the graph, what the vertices gather is what their in-neighbours hand out:
every vertex hands its rank over its out-degree to each of its out-edges. -/
theorem pgrank_sum_gather (N : Nat) (page : vertex_id_t → page_vertex)
    (hok : pgrank_graph_ok N page) (graph : vertex_id_t → pgrank_vertex)
    (hdeg : ∀ u, (graph u).num_out_edges = (page u).out_edges.length) :
    ∑ v in Finset.range N, pgrank_gather graph (page v).in_edges
      = ∑ u in Finset.range N, (page u).out_edges.length
          • ((graph u).curr_itr_pr / ((page u).out_edges.length : ℚ)) := by
  have hone : ∀ v ∈ Finset.range N, pgrank_gather graph (page v).in_edges
      = ∑ u in Finset.range N, (page v).in_edges.count u
          • ((graph u).curr_itr_pr / ((page u).out_edges.length : ℚ)) := by
    intro v hv
    rw [pgrank_gather_eq_sum, Finset.sum_list_map_count]
    have hsub : (page v).in_edges.toFinset ⊆ Finset.range N := by
      intro u hu
      rw [Finset.mem_range]
      exact hok.1 v (Finset.mem_range.mp hv) u (List.mem_toFinset.mp hu)
    rw [Finset.sum_subset hsub]
    · apply Finset.sum_congr rfl
      intro u _
      rw [hdeg u]
    · intro u _ hu
      have hc : (page v).in_edges.count u = 0 :=
        List.count_eq_zero_of_not_mem (fun h => hu (List.mem_toFinset.mpr h))
      rw [hc, zero_smul]
  rw [Finset.sum_congr rfl hone, Finset.sum_comm]
  apply Finset.sum_congr rfl
  intro u hu
  rw [← Finset.sum_smul, hok.2 u (Finset.mem_range.mp hu)]

/-- In a graph of `N` vertices the ranks sum to at most `N`. -/
theorem pgrank_sum_le (d : ℚ) (hd0 : 0 ≤ d) (hd1 : d ≤ 1) (N : Nat)
    (page : vertex_id_t → page_vertex) (hok : pgrank_graph_ok N page)
    (graph : vertex_id_t → pgrank_vertex) (h : pgrank_inv d page graph) :
    ∑ v in Finset.range N, (graph v).curr_itr_pr ≤ N := by
  obtain ⟨hdeg, hlow, hup, hone⟩ := h
  have hnn : ∀ u, 0 ≤ (graph u).curr_itr_pr := fun u => le_trans (by linarith) (hlow u)
  by_cases h1 : d = 1
  · rw [Finset.sum_congr rfl (fun v _ => hone h1 v)]
    simp
  · have hlt : d < 1 := lt_of_le_of_ne hd1 h1
    have hgather := pgrank_sum_gather N page hok graph (fun u => (hdeg u).2)
    have hhand : ∑ u in Finset.range N, (page u).out_edges.length
          • ((graph u).curr_itr_pr / ((page u).out_edges.length : ℚ))
        ≤ ∑ u in Finset.range N, (graph u).curr_itr_pr := by
      apply Finset.sum_le_sum
      intro u _
      by_cases h0 : (page u).out_edges.length = 0
      · rw [h0, zero_smul]
        exact hnn u
      · have hne : ((page u).out_edges.length : ℚ) ≠ 0 := Nat.cast_ne_zero.mpr h0
        rw [nsmul_eq_mul, mul_div_cancel₀ _ hne]
    have hsum : ∑ v in Finset.range N, (graph v).curr_itr_pr
        ≤ ∑ v in Finset.range N,
            ((1 - d) + d * pgrank_gather graph (page v).in_edges) :=
      Finset.sum_le_sum (fun v _ => hup v)
    rw [Finset.sum_add_distrib, Finset.sum_const, Finset.card_range, ← Finset.mul_sum,
      hgather, nsmul_eq_mul] at hsum
    have hmul := mul_le_mul_of_nonneg_left hhand hd0
    have hfin : (1 - d) * ∑ v in Finset.range N, (graph v).curr_itr_pr ≤ (1 - d) * N := by
      linarith
    exact le_of_mul_le_mul_left hfin (by linarith)

/-- C6, as stated, fails twice. With the damping factor 0.85 that the program starts with,
the centre of a star with seven in-neighbours of out-degree one gets the rank 417/400 in its
first run, above 1; and the damping factor 1, which `main` accepts, gives every vertex the
initial rank 0, outside (0, 1]. -/
theorem C6_pgrank_range_counterexample :
    damping_factor_accepted (17 / 20) = true ∧
    (pgrank_run_schedule (17 / 20) TOLERANCE pgrank_star
        (pgrank_start (17 / 20) pgrank_star) [0] 0).curr_itr_pr = 417 / 400 ∧
    ¬ (0 < (pgrank_run_schedule (17 / 20) TOLERANCE pgrank_star
          (pgrank_start (17 / 20) pgrank_star) [0] 0).curr_itr_pr ∧
       (pgrank_run_schedule (17 / 20) TOLERANCE pgrank_star
          (pgrank_start (17 / 20) pgrank_star) [0] 0).curr_itr_pr ≤ 1) ∧
    damping_factor_accepted 1 = true ∧
    ¬ (0 < (pgrank_start 1 pgrank_star 0).curr_itr_pr ∧
       (pgrank_start 1 pgrank_star 0).curr_itr_pr ≤ 1) := by
  have hval : (pgrank_run_schedule (17 / 20) TOLERANCE pgrank_star
      (pgrank_start (17 / 20) pgrank_star) [0] 0).curr_itr_pr = 417 / 400 := by
    simp only [pgrank_run_schedule, List.foldl_cons, List.foldl_nil]
    rw [pgrank_run_vertex_eq]
    simp [pgrank_start, pgrank_vertex.ctor, pgrank_star, pgrank_gather]
    norm_num
  refine ⟨?_, hval, ?_, ?_, ?_⟩
  · rw [damping_factor_accepted_iff]
    norm_num
  · rw [hval]
    norm_num
  · rw [damping_factor_accepted_iff]
    norm_num
  · simp [pgrank_start, pgrank_vertex.ctor]

/-- C6, amended: for every damping factor that `main` accepts and every sequence of vertex
runs from the constructed vertices, every rank is at least `1 - DAMPING_FACTOR`, hence not
negative, and positive when the damping factor is below 1; and in a graph of `N` vertices
whose in- and out-adjacency describe one edge set the ranks sum to at most `N`, so that
every rank is at most `N`. -/
theorem C6_pgrank_range_amended (d tol : ℚ) (hd : damping_factor_accepted d = true)
    (page : vertex_id_t → page_vertex) (schedule : List vertex_id_t) :
    (∀ v, 1 - d ≤ (pgrank_run_schedule d tol page (pgrank_start d page) schedule
        v).curr_itr_pr ∧
      0 ≤ (pgrank_run_schedule d tol page (pgrank_start d page) schedule v).curr_itr_pr ∧
      (d < 1 →
        0 < (pgrank_run_schedule d tol page (pgrank_start d page) schedule
          v).curr_itr_pr)) ∧
    (∀ N, pgrank_graph_ok N page →
      ∑ v in Finset.range N,
          (pgrank_run_schedule d tol page (pgrank_start d page) schedule v).curr_itr_pr
        ≤ N ∧
      ∀ v, v < N →
        (pgrank_run_schedule d tol page (pgrank_start d page) schedule v).curr_itr_pr
          ≤ N) := by
  obtain ⟨hd0, hd1⟩ := (damping_factor_accepted_iff d).mp hd
  have hinv := pgrank_inv_schedule d tol hd0 hd1 page schedule _
    (pgrank_inv_start d hd0 hd1 page)
  have hlow := hinv.2.1
  have hnn : ∀ u, 0 ≤ (pgrank_run_schedule d tol page (pgrank_start d page) schedule
      u).curr_itr_pr := fun u => le_trans (by linarith) (hlow u)
  refine ⟨fun v => ⟨hlow v, hnn v, fun hlt => lt_of_lt_of_le (by linarith) (hlow v)⟩, ?_⟩
  intro N hok
  have hsum := pgrank_sum_le d hd0 hd1 N page hok _ hinv
  refine ⟨hsum, fun v hv => le_trans ?_ hsum⟩
  exact Finset.single_le_sum
    (f := fun u => (pgrank_run_schedule d tol page (pgrank_start d page) schedule
      u).curr_itr_pr)
    (fun u _ => hnn u) (Finset.mem_range.mpr hv)

theorem pgrank_star_ok : pgrank_graph_ok 8 pgrank_star := by
  constructor
  · intro v hv u hu
    by_cases h0 : v = 0
    · subst h0
      simp only [pgrank_star, if_true, List.mem_cons, List.mem_singleton, List.mem_nil_iff,
        or_false] at hu
      rcases hu with h | h | h | h | h | h | h <;> rw [h] <;> decide
    · by_cases h7 : v ≤ 7
      · simp [pgrank_star, h0, h7] at hu
      · simp [pgrank_star, h0, h7] at hu
  · intro u hu
    have hcases : u = 0 ∨ u = 1 ∨ u = 2 ∨ u = 3 ∨ u = 4 ∨ u = 5 ∨ u = 6 ∨ u = 7 := by
      omega
    rcases hcases with h | h | h | h | h | h | h | h <;> subst h <;>
      simp [pgrank_star, Finset.sum_range_succ]

/-- C6 amended, at the star with the damping factor 0.85 after one run of its centre. -/
theorem C6_pgrank_range_amended_witness :
    damping_factor_accepted (17 / 20) = true ∧
    pgrank_graph_ok 8 pgrank_star ∧
    ((∀ v, 1 - (17 / 20 : ℚ) ≤ (pgrank_run_schedule (17 / 20) TOLERANCE pgrank_star
          (pgrank_start (17 / 20) pgrank_star) [0] v).curr_itr_pr ∧
        0 ≤ (pgrank_run_schedule (17 / 20) TOLERANCE pgrank_star
          (pgrank_start (17 / 20) pgrank_star) [0] v).curr_itr_pr ∧
        ((17 / 20 : ℚ) < 1 →
          0 < (pgrank_run_schedule (17 / 20) TOLERANCE pgrank_star
            (pgrank_start (17 / 20) pgrank_star) [0] v).curr_itr_pr)) ∧
      (∀ N, pgrank_graph_ok N pgrank_star →
        ∑ v in Finset.range N,
            (pgrank_run_schedule (17 / 20) TOLERANCE pgrank_star
              (pgrank_start (17 / 20) pgrank_star) [0] v).curr_itr_pr
          ≤ N ∧
        ∀ v, v < N →
          (pgrank_run_schedule (17 / 20) TOLERANCE pgrank_star
            (pgrank_start (17 / 20) pgrank_star) [0] v).curr_itr_pr
            ≤ N)) :=
  ⟨(damping_factor_accepted_iff _).mpr (by norm_num), pgrank_star_ok,
    C6_pgrank_range_amended (17 / 20) TOLERANCE
      ((damping_factor_accepted_iff _).mpr (by norm_num)) pgrank_star [0]⟩

/-! ## set_array_ranges -/

theorem ceil_quotient_mul (v1 v2 : Nat) (h : 1 ≤ v2) : v1 ≤ ceil_quotient v1 v2 * v2 := by
  have hpos : (0 : ℚ) < (v2 : ℚ) := by exact_mod_cast h
  have hle : (v1 : ℚ) / (v2 : ℚ) ≤ (ceil_quotient v1 v2 : ℚ) := Nat.le_ceil _
  have hmul : (v1 : ℚ) ≤ (ceil_quotient v1 v2 : ℚ) * (v2 : ℚ) := (div_le_iff₀ hpos).mp hle
  exact_mod_cast hmul

theorem tiles_append :
    ∀ (xs ys : List set_range_call) (a b c : Nat),
      tiles a b xs → tiles b c ys → tiles a c (xs ++ ys)
  | [], ys, a, b, c, h1, h2 => by
    simp only [tiles] at h1
    subst h1
    simpa using h2
  | x :: xs, ys, a, b, c, h1, h2 => by
    obtain ⟨h0, hs, ht⟩ := h1
    exact ⟨h0, hs, tiles_append xs ys _ b c ht h2⟩

theorem tiles_bounds :
    ∀ (cs : List set_range_call) (a b : Nat), tiles a b cs →
      a ≤ b ∧ ∀ c ∈ cs, a ≤ c.off ∧ c.off + c.size ≤ b
  | [], a, b, h => by
    simp only [tiles] at h
    subst h
    simp
  | x :: xs, a, b, h => by
    obtain ⟨h0, _, ht⟩ := h
    obtain ⟨hab, hall⟩ := tiles_bounds xs _ b ht
    refine ⟨by omega, ?_⟩
    intro c hc
    rcases List.mem_cons.mp hc with hc | hc
    · subst hc
      omega
    · have := hall c hc
      omega

theorem tiles_pairwise :
    ∀ (cs : List set_range_call) (a b : Nat), tiles a b cs →
      cs.Pairwise (fun c1 c2 => c1.off + c1.size ≤ c2.off)
  | [], _, _, _ => List.Pairwise.nil
  | x :: xs, a, b, h => by
    obtain ⟨h0, _, ht⟩ := h
    refine List.Pairwise.cons ?_ (tiles_pairwise xs _ b ht)
    intro c hc
    have := (tiles_bounds xs _ b ht).2 c hc
    omega

theorem tiles_cover :
    ∀ (cs : List set_range_call) (a b : Nat), tiles a b cs →
      ∀ x, (∃ c ∈ cs, c.off ≤ x ∧ x < c.off + c.size) ↔ (a ≤ x ∧ x < b)
  | [], a, b, h => by
    simp only [tiles] at h
    subst h
    intro x
    simp
  | y :: ys, a, b, h => by
    obtain ⟨h0, hs, ht⟩ := h
    have ih := tiles_cover ys _ b ht
    have hb := (tiles_bounds ys _ b ht).1
    intro x
    constructor
    · rintro ⟨c, hc, hx1, hx2⟩
      rcases List.mem_cons.mp hc with hc | hc
      · subst hc
        omega
      · have := (ih x).mp ⟨c, hc, hx1, hx2⟩
        omega
    · rintro ⟨hx1, hx2⟩
      by_cases hx : x < a + y.size
      · exact ⟨y, List.mem_cons_self _ _, by omega, by omega⟩
      · obtain ⟨c, hc, h1, h2⟩ := (ih x).mpr ⟨by omega, hx2⟩
        exact ⟨c, List.mem_cons_of_mem _ hc, h1, h2⟩

/-- With a range of at least one byte the loop of a task ends within `to_size` rounds, and
its calls follow one another from `to_off + rel_off` to the end of the share of the task. -/
theorem run_loop_spec (t : set_data_task) (hR : 1 ≤ t.range_size) :
    ∀ (fuel rel_off : Nat), t.to_size - rel_off ≤ fuel →
      ∃ cs, t.run_loop fuel rel_off = some cs ∧
        tiles (t.to_off + min rel_off t.to_size) (t.to_off + t.to_size) cs ∧
        ∀ c ∈ cs, c.size ≤ t.range_size ∧ ∃ k, c.off = t.to_off + rel_off + k * t.range_size
  | 0, rel_off, h => by
    have hge : ¬ rel_off < t.to_size := by omega
    refine ⟨[], by simp [set_data_task.run_loop, hge], ?_, by simp⟩
    simp only [tiles]
    rw [Nat.min_eq_right (by omega)]
  | fuel + 1, rel_off, h => by
    by_cases hlt : rel_off < t.to_size
    · obtain ⟨cs, hcs, htile, hall⟩ :=
        run_loop_spec t hR fuel (rel_off + t.range_size) (by omega)
      refine ⟨set_range_call.mk (t.to_buf.add (t.to_off + rel_off))
          (min (t.to_size - rel_off) t.range_size) (t.to_off + rel_off) t.node_id :: cs,
        by simp [set_data_task.run_loop, hlt, hcs], ?_, ?_⟩
      · refine ⟨?_, ?_, ?_⟩
        · simp only []
          rw [Nat.min_eq_left (by omega)]
        · simp only []
          omega
        · have he : t.to_off + min rel_off t.to_size
              + min (t.to_size - rel_off) t.range_size
              = t.to_off + min (rel_off + t.range_size) t.to_size := by
            omega
          simp only []
          rw [he]
          exact htile
      · intro c hc
        rcases List.mem_cons.mp hc with hc | hc
        · subst hc
          exact ⟨Nat.min_le_right _ _, 0, by simp⟩
        · obtain ⟨hsz, k, hk⟩ := hall c hc
          exact ⟨hsz, k + 1, by rw [hk, Nat.add_mul]; omega⟩
    · have hge : t.to_size ≤ rel_off := by omega
      refine ⟨[], by simp [set_data_task.run_loop, hlt], ?_, by simp⟩
      simp only [tiles]
      rw [Nat.min_eq_right hge]

theorem run_tasks_append (fuel : Nat) :
    ∀ (xs ys : List set_data_task) (a b : List set_range_call),
      run_tasks fuel xs = some a → run_tasks fuel ys = some b →
      run_tasks fuel (xs ++ ys) = some (a ++ b)
  | [], ys, a, b, h1, h2 => by
    simp only [run_tasks, Option.some.injEq] at h1
    subst h1
    simpa using h2
  | x :: xs, ys, a, b, h1, h2 => by
    simp only [run_tasks] at h1
    cases hx : x.run fuel with
    | none => simp [hx] at h1
    | some cx =>
      cases hxs : run_tasks fuel xs with
      | none => simp [hx, hxs] at h1
      | some cxs =>
        simp only [hx, hxs, Option.some.injEq] at h1
        subst h1
        have ih := run_tasks_append fuel xs ys cxs b hxs h2
        simp [run_tasks, hx, ih]

theorem tiles_size_pos :
    ∀ (cs : List set_range_call) (a b : Nat), tiles a b cs → ∀ c ∈ cs, 0 < c.size
  | [], _, _, _ => by simp
  | x :: xs, a, b, h => by
    obtain ⟨_, hs, ht⟩ := h
    intro c hc
    rcases List.mem_cons.mp hc with hc | hc
    · subst hc
      exact hs
    · exact tiles_size_pos xs _ b ht c hc

/-- The tasks for the threads `0 .. T-1` of a node, run one after the other, make calls that
follow one another from byte 0 up to the end of the share of thread `T-1`, or up to the
end of the array when that comes first. -/
theorem tasks_spec (L nb R : Nat) (buf : raw_pointer) (node : Int) (hR : 1 ≤ R)
    (hdiv : R ∣ nb) (fuel : Nat) (hfuel : L ≤ fuel) :
    ∀ T : Nat, ∃ cs,
      run_tasks fuel ((List.range T).filterMap (fun j =>
        if L ≤ nb * j then none
        else some { to_buf := buf, to_off := nb * j, to_size := min nb (L - nb * j),
                    node_id := node, range_size := R })) = some cs ∧
      tiles 0 (min (nb * T) L) cs ∧ ∀ c ∈ cs, c.size ≤ R ∧ R ∣ c.off
  | 0 => ⟨[], by simp [run_tasks], by simp [tiles], by simp⟩
  | T + 1 => by
    obtain ⟨cs, hcs, htile, hall⟩ := tasks_spec L nb R buf node hR hdiv fuel hfuel T
    rw [List.range_succ, List.filterMap_append]
    by_cases hL : L ≤ nb * T
    · refine ⟨cs, ?_, ?_, hall⟩
      · simp [hL, hcs]
      · have h1 : min (nb * (T + 1)) L = min (nb * T) L := by
          rw [Nat.mul_succ]
          omega
        rw [h1]
        exact htile
    · obtain ⟨ct, hct, httile, htall⟩ := run_loop_spec
        { to_buf := buf, to_off := nb * T, to_size := min nb (L - nb * T), node_id := node,
          range_size := R } hR fuel 0 (by simp only []; omega)
      simp only [] at hct httile htall
      have hone : run_tasks fuel
          [set_data_task.mk buf (nb * T) (min nb (L - nb * T)) node R] = some ct := by
        simp [run_tasks, set_data_task.run, hct]
      refine ⟨cs ++ ct, ?_, ?_, ?_⟩
      · have happ := run_tasks_append fuel _ _ cs ct hcs hone
        simpa [hL] using happ
      · have h0 : min (nb * T) L = nb * T := by omega
        have h1 : nb * T + min 0 (min nb (L - nb * T)) = nb * T := by omega
        have h2 : nb * T + min nb (L - nb * T) = min (nb * (T + 1)) L := by
          rw [Nat.mul_succ]
          omega
        rw [h0] at htile
        rw [h1, h2] at httile
        exact tiles_append cs ct _ _ _ htile httile
      · intro c hc
        rcases List.mem_append.mp hc with hc | hc
        · exact hall c hc
        · obtain ⟨hsz, k, hk⟩ := htall c hc
          refine ⟨hsz, ?_⟩
          rw [hk]
          exact Nat.dvd_add (Nat.dvd_add (Dvd.dvd.mul_right hdiv T) (Nat.dvd_zero R))
            (Nat.dvd_mul_left R k)

theorem rat_double_exact : double_exact rat_double := by
  intro v1 v2 _ _ _
  simp [ceil_divide, rat_double, ceil_quotient]

theorem ceil_quotient_le (v1 v2 : Nat) (h : 1 ≤ v2) : ceil_quotient v1 v2 ≤ v1 := by
  have hpos : (0 : ℚ) < (v2 : ℚ) := by exact_mod_cast h
  have hone : (1 : ℚ) ≤ (v2 : ℚ) := by exact_mod_cast h
  have hle : (v1 : ℚ) / (v2 : ℚ) ≤ (v1 : ℚ) := div_le_self (Nat.cast_nonneg _) hone
  exact Nat.ceil_le.mpr hle

/-- On sizes below 2^53 the tasks are those of the exact ceilings. -/
theorem set_array_tasks_eq {D : Type} (dbl : double_ops D) (hdbl : double_exact dbl)
    (T local_len entry_size range_size : Nat) (buf : raw_pointer) (node : Int)
    (hT : 1 ≤ T) (hr : 1 ≤ range_size) (hlen : local_len < 2 ^ 53)
    (hrange : range_size < 2 ^ 53) (hthreads : T < 2 ^ 53) :
    set_array_tasks dbl T local_len entry_size range_size buf node
      = (List.range T).filterMap (fun j =>
          if local_len * entry_size
              ≤ ceil_quotient (ceil_quotient local_len range_size) T * range_size
                  * entry_size * j
          then none
          else some (set_data_task.mk buf
            (ceil_quotient (ceil_quotient local_len range_size) T * range_size
              * entry_size * j)
            (min (ceil_quotient (ceil_quotient local_len range_size) T * range_size
                * entry_size)
              (local_len * entry_size
                - ceil_quotient (ceil_quotient local_len range_size) T * range_size
                  * entry_size * j))
            node (range_size * entry_size))) := by
  have h1 : ceil_divide dbl local_len range_size = ceil_quotient local_len range_size :=
    hdbl local_len range_size hlen hrange hr
  have h2 : ceil_divide dbl (ceil_quotient local_len range_size) T
      = ceil_quotient (ceil_quotient local_len range_size) T :=
    hdbl _ T (lt_of_le_of_lt (ceil_quotient_le local_len range_size hr) hlen) hthreads hT
  unfold set_array_tasks
  simp only [h1, h2]

theorem set_array_ranges_from_get {D : Type} (dbl : double_ops D) (nthreads_per_node : Nat)
    (local_lens : Nat → Nat) (entry_size range_size : Nat)
    (get_raw : raw_data_array → raw_pointer) :
    ∀ (arrs : List raw_data_array) (k i : Nat) (arr : raw_data_array),
      arrs[i]? = some arr →
      (set_array_ranges_from dbl nthreads_per_node local_lens entry_size range_size get_raw
          k arrs)[i]?
        = some (set_array_tasks dbl nthreads_per_node (local_lens (k + i)) entry_size
            range_size (get_raw arr) arr.node_id)
  | [], _, _, _, h => by simp at h
  | a :: arrs, k, 0, arr, h => by
    simp only [List.getElem?_cons_zero, Option.some.injEq] at h
    subst h
    simp [set_array_ranges_from]
  | a :: arrs, k, i + 1, arr, h => by
    simp only [List.getElem?_cons_succ] at h
    have ih := set_array_ranges_from_get dbl nthreads_per_node local_lens entry_size
      range_size get_raw arrs (k + 1) i arr h
    simp only [set_array_ranges_from, List.getElem?_cons_succ, ih]
    rw [show k + 1 + i = k + (i + 1) by omega]

/-- The tasks issued for one array, run one after the other, make calls that follow one
another from byte 0 to the end of the array. -/
theorem set_array_tasks_spec {D : Type} (dbl : double_ops D) (hdbl : double_exact dbl)
    (T local_len entry_size range_size : Nat) (buf : raw_pointer)
    (node : Int) (hT : 1 ≤ T) (hr : 1 ≤ range_size) (he : 1 ≤ entry_size)
    (hlen : local_len < 2 ^ 53) (hrange : range_size < 2 ^ 53) (hthreads : T < 2 ^ 53)
    (fuel : Nat) (hfuel : local_len * entry_size ≤ fuel) :
    ∃ cs, run_tasks fuel (set_array_tasks dbl T local_len entry_size range_size buf node)
        = some cs ∧
      tiles 0 (local_len * entry_size) cs ∧
      ∀ c ∈ cs, c.size ≤ range_size * entry_size ∧ range_size * entry_size ∣ c.off := by
  rw [set_array_tasks_eq dbl hdbl T local_len entry_size range_size buf node hT hr hlen
    hrange hthreads]
  have hR : 1 ≤ range_size * entry_size := Nat.mul_le_mul hr he
  have hdiv : range_size * entry_size
      ∣ ceil_quotient (ceil_quotient local_len range_size) T * range_size * entry_size :=
    ⟨ceil_quotient (ceil_quotient local_len range_size) T, by ring⟩
  obtain ⟨cs, hcs, htile, hall⟩ := tasks_spec (local_len * entry_size)
    (ceil_quotient (ceil_quotient local_len range_size) T * range_size * entry_size)
    (range_size * entry_size) buf node hR hdiv fuel hfuel T
  refine ⟨cs, hcs, ?_, hall⟩
  have h1 := ceil_quotient_mul local_len range_size hr
  have h2 := ceil_quotient_mul (ceil_quotient local_len range_size) T hT
  have hcover : local_len * entry_size
      ≤ ceil_quotient (ceil_quotient local_len range_size) T * range_size * entry_size * T := by
    calc local_len * entry_size
        ≤ ceil_quotient local_len range_size * range_size * entry_size :=
          Nat.mul_le_mul_right _ h1
      _ ≤ ceil_quotient (ceil_quotient local_len range_size) T * T * range_size * entry_size :=
          Nat.mul_le_mul_right _ (Nat.mul_le_mul_right _ h2)
      _ = ceil_quotient (ceil_quotient local_len range_size) T * range_size * entry_size * T := by
          ring
  rw [Nat.min_eq_right hcover] at htile
  exact htile

theorem ceil_quotient_mul_lt (v1 v2 : Nat) (h : 1 ≤ v2) :
    ceil_quotient v1 v2 * v2 < v1 + v2 := by
  have hpos : (0 : ℚ) < (v2 : ℚ) := by exact_mod_cast h
  have hnn : (0 : ℚ) ≤ (v1 : ℚ) / (v2 : ℚ) := div_nonneg (Nat.cast_nonneg _) hpos.le
  have hlt : (ceil_quotient v1 v2 : ℚ) < (v1 : ℚ) / (v2 : ℚ) + 1 := Nat.ceil_lt_add_one hnn
  have hmul : (ceil_quotient v1 v2 : ℚ) * (v2 : ℚ) < ((v1 : ℚ) / (v2 : ℚ) + 1) * (v2 : ℚ) :=
    mul_lt_mul_of_pos_right hlt hpos
  have hval : ((v1 : ℚ) / (v2 : ℚ) + 1) * (v2 : ℚ) = (v1 : ℚ) + (v2 : ℚ) := by
    field_simp
  rw [hval] at hmul
  exact_mod_cast hmul

/-- The share of a thread times the number of threads, with one more range, stays within the
bound on the bytes. -/
theorem nbytes_per_thread_bound (T local_len entry_size range_size : Nat) (hT : 1 ≤ T)
    (hr : 1 ≤ range_size) :
    ceil_quotient (ceil_quotient local_len range_size) T * range_size * entry_size * T
        + range_size * entry_size
      ≤ (local_len + (T + 2) * range_size) * entry_size := by
  have h1 := ceil_quotient_mul_lt local_len range_size hr
  have h2 := ceil_quotient_mul_lt (ceil_quotient local_len range_size) T hT
  have h3 : ceil_quotient (ceil_quotient local_len range_size) T * T + 1
      ≤ ceil_quotient local_len range_size + T := h2
  calc ceil_quotient (ceil_quotient local_len range_size) T * range_size * entry_size * T
          + range_size * entry_size
      = (ceil_quotient (ceil_quotient local_len range_size) T * T + 1)
          * (range_size * entry_size) := by ring
    _ ≤ (ceil_quotient local_len range_size + T) * (range_size * entry_size) :=
        Nat.mul_le_mul_right _ h3
    _ = (ceil_quotient local_len range_size * range_size + T * range_size) * entry_size := by
        ring
    _ ≤ (local_len + range_size + T * range_size) * entry_size :=
        Nat.mul_le_mul_right _ (Nat.add_le_add_right h1.le _)
    _ = (local_len + (T + 1) * range_size) * entry_size := by ring
    _ ≤ (local_len + (T + 2) * range_size) * entry_size :=
        Nat.mul_le_mul_right _ (Nat.add_le_add_left (Nat.mul_le_mul_right _ (by omega)) _)

/-- Every task issued for an array lies within the array and has the range in bytes as its
step. -/
theorem set_array_tasks_mem {D : Type} (dbl : double_ops D)
    (T local_len entry_size range_size : Nat) (buf : raw_pointer)
    (node : Int) (t : set_data_task)
    (ht : t ∈ set_array_tasks dbl T local_len entry_size range_size buf node) :
    t.to_off + t.to_size ≤ local_len * entry_size ∧
    t.range_size = range_size * entry_size := by
  unfold set_array_tasks at ht
  simp only [List.mem_filterMap, List.mem_range] at ht
  obtain ⟨j, _, hj⟩ := ht
  by_cases hle : local_len * entry_size
      ≤ ceil_divide dbl (ceil_divide dbl local_len range_size) T * range_size
          * entry_size * j
  · simp [hle] at hj
  · simp only [hle, if_false, Option.some.injEq] at hj
    subst hj
    simp only []
    exact ⟨by omega, trivial⟩

/-- C11: for an array `arrs[i]` handled by `set_array_ranges`, with at least one thread per
NUMA node, a range size and an entry size of at least one, with sizes below 2^53, where the
`double` quotient of `ceil_divide` is exact, and with a byte count below 2^63, so that no
`size_t` or `off_t` value wraps: at most `nthreads_per_node` tasks are issued, every task
ends, and the byte intervals `[off, off + size)` of their calls of `set_range.set` are
pairwise disjoint, cover exactly the bytes below `local_lens[i] * entry_size`, each start
at a multiple of `range_size * entry_size`, and are each at most `range_size * entry_size`
bytes long and not empty. Every offset that the code computes stays below 2^63: the share
of a thread times any thread index, the end of every task with one more range, and the end
of every call. -/
theorem C11_set_array_ranges {D : Type} (dbl : double_ops D) (hdbl : double_exact dbl)
    (num_threads num_nodes : Nat) (local_lens : Nat → Nat)
    (entry_size range_size : Nat) (get_raw : raw_data_array → raw_pointer)
    (arrs : List raw_data_array) (i : Nat) (arr : raw_data_array)
    (harr : arrs[i]? = some arr) (hT : 1 ≤ num_threads / num_nodes)
    (hr : 1 ≤ range_size) (he : 1 ≤ entry_size)
    (hlen : local_lens i < 2 ^ 53) (hrange : range_size < 2 ^ 53)
    (hthreads : num_threads / num_nodes < 2 ^ 53)
    (hbytes : (local_lens i + (num_threads / num_nodes + 2) * range_size) * entry_size
      < 2 ^ 63)
    (fuel : Nat) (hfuel : local_lens i * entry_size ≤ fuel) :
    ∃ tasks,
      (set_array_ranges dbl num_threads num_nodes local_lens entry_size range_size get_raw
        arrs)[i]? = some tasks ∧
      tasks.length ≤ num_threads / num_nodes ∧
      (∃ calls, run_tasks fuel tasks = some calls ∧
        calls.Pairwise
          (fun c1 c2 => c1.off + c1.size ≤ c2.off ∨ c2.off + c2.size ≤ c1.off) ∧
        (∀ b, (∃ c ∈ calls, c.off ≤ b ∧ b < c.off + c.size)
          ↔ b < local_lens i * entry_size) ∧
        (∀ c ∈ calls, range_size * entry_size ∣ c.off ∧
          c.size ≤ range_size * entry_size ∧ 0 < c.size) ∧
        (∀ c ∈ calls, c.off + c.size < 2 ^ 63)) ∧
      (∀ j, j < num_threads / num_nodes →
        ceil_divide dbl (ceil_divide dbl (local_lens i) range_size) (num_threads / num_nodes)
          * range_size * entry_size * j < 2 ^ 63) ∧
      (∀ t ∈ tasks, t.to_off + t.to_size + t.range_size < 2 ^ 63) := by
  have hget := set_array_ranges_from_get dbl (num_threads / num_nodes) local_lens entry_size
    range_size get_raw arrs 0 i arr harr
  rw [Nat.zero_add] at hget
  obtain ⟨cs, hcs, htile, hall⟩ := set_array_tasks_spec dbl hdbl (num_threads / num_nodes)
    (local_lens i) entry_size range_size (get_raw arr) arr.node_id hT hr he hlen hrange
    hthreads fuel hfuel
  have hq1 : ceil_divide dbl (local_lens i) range_size
      = ceil_quotient (local_lens i) range_size :=
    hdbl (local_lens i) range_size hlen hrange hr
  have hq2 : ceil_divide dbl (ceil_quotient (local_lens i) range_size)
        (num_threads / num_nodes)
      = ceil_quotient (ceil_quotient (local_lens i) range_size) (num_threads / num_nodes) :=
    hdbl _ _ (lt_of_le_of_lt (ceil_quotient_le (local_lens i) range_size hr) hlen)
      hthreads hT
  have hbound := nbytes_per_thread_bound (num_threads / num_nodes) (local_lens i) entry_size
    range_size hT hr
  have hL : local_lens i * entry_size + range_size * entry_size
      ≤ (local_lens i + (num_threads / num_nodes + 2) * range_size) * entry_size := by
    have h1 : local_lens i + range_size
        ≤ local_lens i + (num_threads / num_nodes + 2) * range_size :=
      Nat.add_le_add_left (Nat.le_mul_of_pos_left _ (by omega)) _
    calc local_lens i * entry_size + range_size * entry_size
        = (local_lens i + range_size) * entry_size := by ring
      _ ≤ _ := Nat.mul_le_mul_right _ h1
  refine ⟨_, hget, ?_, ⟨cs, hcs, ?_, ?_, ?_, ?_⟩, ?_, ?_⟩
  · unfold set_array_tasks
    exact le_trans (List.length_filterMap_le _ _) (by simp)
  · exact (tiles_pairwise cs _ _ htile).imp (fun h => Or.inl h)
  · intro b
    rw [tiles_cover cs _ _ htile b]
    simp
  · intro c hc
    exact ⟨(hall c hc).2, (hall c hc).1, tiles_size_pos cs _ _ htile c hc⟩
  · intro c hc
    have := ((tiles_bounds cs _ _ htile).2 c hc).2
    omega
  · intro j hj
    rw [hq1, hq2]
    have hmono : ceil_quotient (ceil_quotient (local_lens i) range_size)
            (num_threads / num_nodes) * range_size * entry_size * j
        ≤ ceil_quotient (ceil_quotient (local_lens i) range_size)
            (num_threads / num_nodes) * range_size * entry_size
          * (num_threads / num_nodes) :=
      Nat.mul_le_mul_left _ hj.le
    omega
  · intro t ht
    obtain ⟨h1, h2⟩ := set_array_tasks_mem dbl _ _ _ _ _ _ t ht
    rw [h2]
    omega

/-- C11, at the exact arithmetic of the rationals, three threads per node, ten entries of
four bytes and ranges of three entries. -/
theorem C11_set_array_ranges_witness :
    ∃ tasks,
      (set_array_ranges rat_double 6 2 (fun _ => 10) 4 3 (fun a => a.start)
        [raw_data_array.mk 0 40 1 (raw_pointer.mk 1 0) 40])[0]? = some tasks ∧
      tasks.length ≤ 6 / 2 ∧
      (∃ calls, run_tasks 40 tasks = some calls ∧
        calls.Pairwise
          (fun c1 c2 => c1.off + c1.size ≤ c2.off ∨ c2.off + c2.size ≤ c1.off) ∧
        (∀ b, (∃ c ∈ calls, c.off ≤ b ∧ b < c.off + c.size) ↔ b < 10 * 4) ∧
        (∀ c ∈ calls, 3 * 4 ∣ c.off ∧ c.size ≤ 3 * 4 ∧ 0 < c.size) ∧
        (∀ c ∈ calls, c.off + c.size < 2 ^ 63)) ∧
      (∀ j, j < 6 / 2 →
        ceil_divide rat_double (ceil_divide rat_double 10 3) (6 / 2) * 3 * 4 * j < 2 ^ 63) ∧
      (∀ t ∈ tasks, t.to_off + t.to_size + t.range_size < 2 ^ 63) :=
  C11_set_array_ranges rat_double rat_double_exact 6 2 (fun _ => 10) 4 3 (fun a => a.start)
    [raw_data_array.mk 0 40 1 (raw_pointer.mk 1 0) 40] 0
    (raw_data_array.mk 0 40 1 (raw_pointer.mk 1 0) 40) rfl (by decide) (by decide)
    (by decide) (by decide) (by decide) (by decide) (by decide) 40 (by decide)

/-! ## raw_data_array::deep_copy -/

/-- C12: what `deep_copy` does on an array that holds its entire array, with a newly
allocated block `addr`: the returned array has the `num_bytes` and the node id of the
original, its `data` is the new block and the bytes there are the original's, but its
`start` is the start of the buffer of the original, not of the new block; a store through
the start of the copy changes the byte of the original. -/
theorem C12_deep_copy_start (has_entire_array : raw_data_array → Bool) (mem : memory)
    (addr : Nat) (self : raw_data_array) (hentire : has_entire_array self = true)
    (hnew : addr ≠ self.data) :
    ∃ ret mem1,
      raw_data_array.deep_copy has_entire_array mem addr self = .ok (ret, mem1) ∧
      ret.num_bytes = self.num_bytes ∧ ret.node_id = self.node_id ∧
      ret.data = addr ∧
      (∀ i, i < self.num_bytes → mem1 ret.data i = mem self.data i) ∧
      ret.start = { block := self.data, off := 0 } ∧
      ret.start ≠ { block := ret.data, off := 0 } ∧
      (∀ i byte, store_byte mem1 ret.start i byte self.data i = byte) := by
  refine ⟨raw_data_array.mk self.node_id self.num_bytes addr (raw_pointer.mk self.data 0)
      self.num_used_bytes, memcpy mem addr self.data self.num_bytes,
    by simp [raw_data_array.deep_copy, hentire], rfl, rfl, rfl, ?_, rfl, ?_, ?_⟩
  · intro i hi
    simp [memcpy, hi]
  · intro h
    simp only [raw_pointer.mk.injEq, and_true] at h
    exact hnew h.symm
  · intro i byte
    simp [store_byte]

/-- C12, at an array of four bytes in block 1 and the new block 2: a store of 9 through the
start of the copy turns the byte 5 of the original into 9. -/
theorem C12_deep_copy_start_witness :
    (fun _ _ => 5 : memory) 1 0 = 5 ∧
    ∃ ret mem1,
      raw_data_array.deep_copy (fun _ => true) (fun _ _ => 5) 2
        (raw_data_array.mk 0 4 1 (raw_pointer.mk 1 0) 4) = .ok (ret, mem1) ∧
      ret.num_bytes = 4 ∧ ret.node_id = 0 ∧
      ret.data = 2 ∧
      (∀ i, i < 4 → mem1 ret.data i = (fun _ _ => 5 : memory) 1 i) ∧
      ret.start = { block := 1, off := 0 } ∧
      ret.start ≠ { block := ret.data, off := 0 } ∧
      (∀ i byte, store_byte mem1 ret.start i byte 1 i = byte) :=
  ⟨rfl, C12_deep_copy_start (fun _ => true) (fun _ _ => 5) 2
    (raw_data_array.mk 0 4 1 (raw_pointer.mk 1 0) 4) rfl (by decide)⟩

end FlashX
